import Mathlib

/-!
# Verification of the nom-json-parser engine

A shallow embedding of `src/lib.rs` and `src/parser.rs` (a recursive-descent
JSON parser written with the nom combinator library), together with proofs
about the claims of the specification.

Modelling conventions:

* Input is `List Char` (Rust `&str` is a sequence of unicode scalar values,
  as is `List Char` in Lean).
* A nom `IResult<&str, O, E>` is modelled by `PResult O`:
  - `ok rest val` models `Ok((rest, val))`;
  - `err` models `Err(Err::Error(_))` — the recoverable error.  nom errors
    carry no input position: the caller that catches an error (`alt`,
    `separated_list0`) resumes at the input *it* supplied, which is how
    "a failed alternative consumes no input" holds by construction.  The
    `VerboseError` context/trace payload is not inspected by any claim and
    is abstracted away;
  - `fail` models `Err(Err::Failure(_)) | Err(Err::Incomplete(_))`.  All
    combinators used by this parser come from nom's `complete` modules, so
    no definition below ever constructs `fail`; it is kept so that the
    propagation behaviour of the combinators (`alt` catches only `err`)
    is modelled faithfully;
  - `panic` models a Rust panic (the two `.unwrap()` calls in `hex_char`).
    A panic aborts the whole parse, so every combinator propagates it.
* The mutually recursive parsers (`parse_value`/`parse_array`/`parse_object`)
  are defined with a fuel parameter by structural recursion on `Nat`, so that
  all definitions compute by kernel reduction.  The top entry point `parse`
  supplies fuel `input.length + 2`, which is proved sufficient for every
  grammar-derivable input by the completeness lemmas below.  Running out of
  fuel yields `err`; the soundness-style theorems are conditional on an `ok`
  result and are therefore unaffected by the fuel bound.
-/

/-- Convert a Lean string literal to the `List Char` input type. -/
def toL (s : String) : List Char := s.data

/-- The whitespace characters skipped by `parse_whitespace` in the source:
space, newline, carriage return, horizontal tab. -/
def isWsChar (c : Char) : Bool := c = ' ' || c = '\n' || c = '\r' || c = '\t'

/-- `parse_whitespace`: `take_while(|ch| ch == ' ' || ch == '\n' || ch == '\r' || ch == '\t')`.
`take_while` always succeeds; it returns the consumed span and the remainder. -/
def parse_whitespace (s : List Char) : List Char × List Char :=
  (s.takeWhile isWsChar, s.dropWhile isWsChar)

/-- The remainder left by `parse_whitespace` (the only part the combinators use). -/
def skipWs (s : List Char) : List Char := s.dropWhile isWsChar

/-- Result of a nom parser over `&str` input (see the module comment). -/
inductive PResult (α : Type) where
  | ok (rest : List Char) (val : α)
  | err
  | fail
  | panic

/-- Sequencing: on success run the continuation on the remainder, otherwise
propagate.  This is how nom's `delimited`, `preceded`, `separated_pair`, `map`
chain their parts with the `?` operator. -/
def PResult.bind {α β : Type} : PResult α → (List Char → α → PResult β) → PResult β
  | .ok r v, f => f r v
  | .err, _ => .err
  | .fail, _ => .fail
  | .panic, _ => .panic

/-- nom's `map` on the output value. -/
def PResult.pmap {α β : Type} (f : α → β) : PResult α → PResult β
  | .ok r v => .ok r (f v)
  | .err => .err
  | .fail => .fail
  | .panic => .panic

/-- nom's `alt` between two branches: the second branch is tried (on the same
input the first one received) only when the first returns a recoverable
`Err::Error`; `Failure`/`Incomplete` and panics are not caught. -/
def porelse {α : Type} (p q : PResult α) : PResult α :=
  match p with
  | .err => q
  | x => x

/-- Case analysis on a parser result: continue on success, use the fallback
on a recoverable error, propagate `fail`/`panic`.  This is definitionally the
`match` both `separated_list0` arms and the `delimited` wrapper perform; it is
introduced so the unfolding equations below expose their branches as plain
applications. -/
def pcatch {α β : Type} (p : PResult α) (qok : List Char → α → PResult β)
    (qerr : PResult β) : PResult β :=
  match p with
  | .ok r v => qok r v
  | .err => qerr
  | .fail => .fail
  | .panic => .panic

theorem pcatch_ok {α β : Type} (r : List Char) (v : α)
    (qok : List Char → α → PResult β) (qerr : PResult β) :
    pcatch (.ok r v) qok qerr = qok r v := rfl

theorem pcatch_err {α β : Type} (qok : List Char → α → PResult β)
    (qerr : PResult β) : pcatch .err qok qerr = qerr := rfl

theorem bind_ok {α β : Type} (r : List Char) (v : α)
    (f : List Char → α → PResult β) : (PResult.ok r v).bind f = f r v := rfl

theorem bind_err {α β : Type} (f : List Char → α → PResult β) :
    (PResult.err : PResult α).bind f = .err := rfl

/-- nom's `tag(t)` (complete): succeeds iff `t` is a prefix of the input,
consuming exactly `t`. -/
def tagP (t s : List Char) : PResult (List Char) :=
  if t.isPrefixOf s then .ok (s.drop t.length) t else .err

/-- nom's `character::complete::char(c)`. -/
def charP (c : Char) (s : List Char) : PResult Char :=
  match s with
  | [] => .err
  | c' :: r => if c' = c then .ok r c else .err

/-! ## The string decoder (`normal_str`, `escapable`, `hex_char`, `parse_str`,
`parse_string` of `src/parser.rs`) -/

/-- Rust `char::is_ascii_control`: U+0000..=U+001F and U+007F. -/
def isAsciiControl (c : Char) : Bool := c.toNat ≤ 0x1F || c.toNat = 0x7F

/-- The characters that stop a normal run inside a string body:
`|ch: char| ch == '\\' || ch == '"' || ch.is_ascii_control()`. -/
def stopChar (c : Char) : Bool := c = '\\' || c = '"' || isAsciiControl c

/-- `normal_str`: `take_till1` of `stopChar` — a maximal nonempty run of
characters that are none of backslash, quote, ASCII control.  Fails (returns
`none`) when the run would be empty. -/
def normal_str (s : List Char) : Option (List Char × List Char) :=
  let chunk := s.takeWhile (fun c => !stopChar c)
  if chunk.isEmpty then none else some (chunk, s.drop chunk.length)

/-- Rust `char::is_ascii_hexdigit`. -/
def isHexDigitCh (c : Char) : Bool :=
  ('0' ≤ c && c ≤ '9') || ('a' ≤ c && c ≤ 'f') || ('A' ≤ c && c ≤ 'F')

/-- The predicate of `take_while_m_n(4, 4, ...)` in `hex_char`:
`|ch: char| ch.is_ascii_hexdigit() || ch == 'u'`.  Note the stray `'u'`. -/
def hexOrU (c : Char) : Bool := isHexDigitCh c || c = 'u'

/-- Numeric value of one hex digit. -/
def hexDigitVal (c : Char) : Nat :=
  if '0' ≤ c && c ≤ '9' then c.toNat - '0'.toNat
  else if 'a' ≤ c && c ≤ 'f' then c.toNat - 'a'.toNat + 10
  else c.toNat - 'A'.toNat + 10

/-- `u32::from_str_radix(s, 16)`: `some` iff every character is a hex digit
(in particular it is `none` when a `'u'` slipped through `hexOrU`). -/
def hexVal? (s : List Char) : Option Nat :=
  if s.all isHexDigitCh then some (s.foldl (fun a c => a * 16 + hexDigitVal c) 0) else none

/-- `hex_char`: `preceded(tag("u"), map(take_while_m_n(4, 4, hexOrU), |s|
char::from_u32(u32::from_str_radix(s, 16).unwrap()).unwrap()))`.
`take_while_m_n(4,4,p)` consumes at most 4 `p`-characters and errors if fewer
than 4 are available.  The first `unwrap` panics when the 4 consumed
characters contain a `'u'`; the second panics when the hex value is a UTF-16
surrogate (0xD800..=0xDFFF), which `char::from_u32` rejects. -/
def hex_char (s : List Char) : PResult Char :=
  match s with
  | 'u' :: r =>
    if 4 ≤ (r.takeWhile hexOrU).length then
      match hexVal? (r.take 4) with
      | none => .panic
      | some n =>
        if 0xD800 ≤ n && n ≤ 0xDFFF then .panic
        else .ok (r.drop 4) (Char.ofNat n)
    else .err
  | _ => .err

/-- `escapable`: `alt((char('"'), char('\\'), char('/'), map(char('b'), ...),
..., hex_char))` — the single character following the backslash. -/
def escapable (s : List Char) : PResult Char :=
  match s with
  | [] => .err
  | c :: r =>
    if c = '"' then .ok r '"'
    else if c = '\\' then .ok r '\\'
    else if c = '/' then .ok r '/'
    else if c = 'b' then .ok r (Char.ofNat 0x08)
    else if c = 'f' then .ok r (Char.ofNat 0x0C)
    else if c = 'n' then .ok r '\n'
    else if c = 'r' then .ok r '\r'
    else if c = 't' then .ok r '\t'
    else hex_char (c :: r)

/-- The loop of nom's `escaped_transform(normal_str, '\\', escapable)`
(complete version), with `atStart` tracking `index == 0`.  One iteration
always consumes at least one character, so fuel `input.length + 1` (supplied
by `parse_str`) never runs out; the fuel-0 branch is unreachable. -/
def escGo : Nat → Bool → List Char → List Char → PResult (List Char)
  | 0, _, _, _ => .err
  | _ + 1, _, [], acc => .ok [] acc
  | f + 1, atStart, c :: rest, acc =>
    match normal_str (c :: rest) with
    | some (chunk, r2) =>
      if r2.isEmpty then .ok [] (acc ++ chunk)
      else escGo f false r2 (acc ++ chunk)
    | none =>
      if c = '\\' then
        if rest.isEmpty then .err
        else
          match escapable rest with
          | .ok r2 ch =>
            if r2.isEmpty then .ok [] (acc ++ [ch])
            else escGo f false r2 (acc ++ [ch])
          | .err => .err
          | .fail => .fail
          | .panic => .panic
      else if atStart then .err
      else .ok (c :: rest) acc

/-- `parse_str`: `escaped_transform(normal_str, '\\', escapable)`. -/
def parse_str (s : List Char) : PResult (List Char) :=
  escGo (s.length + 1) true s []

/-- `parse_string`: `context("string", alt((map(tag("\"\""), |_| ""),
delimited(tag("\""), parse_str, tag("\"")))))`. -/
def parse_string (s : List Char) : PResult (List Char) :=
  match s with
  | '"' :: '"' :: r => .ok r []
  | '"' :: r =>
    (parse_str r).bind fun r2 cs =>
      match r2 with
      | '"' :: r3 => .ok r3 cs
      | _ => .err
  | _ => .err

/-! ## The number scanner

`parse_number` delegates to `nom::number::complete::double`, whose source is
not part of this repository. -/

/-- Digits to the natural number they denote (base 10). -/
def digitsToNat (ds : List Char) : Nat :=
  ds.foldl (fun a c => a * 10 + (c.toNat - '0'.toNat)) 0

/-- Optional leading sign; returns the sign and the remainder. -/
def scanSign : List Char → Int × List Char
  | '+' :: r => (1, r)
  | '-' :: r => (-1, r)
  | s => (1, s)

/-- Optional exponent part: `(e|E) sign? digits`; consumed only when complete,
otherwise nothing is consumed.  Returns the signed exponent. -/
def scanExp (s : List Char) : Int × List Char :=
  match s with
  | e :: r =>
    if e = 'e' || e = 'E' then
      let (es, r2) := scanSign r
      let eds := r2.takeWhile Char.isDigit
      if eds.isEmpty then (0, s) else (es * (digitsToNat eds : Int), r2.drop eds.length)
    else (0, s)
  | [] => (0, [])

/-- The exact numeric value of a scanned literal, as a rational:
`sign * digits.frac * 10^exp`.  The source stores the IEEE binary64 rounding
of this value; the rounding step is floating point and is not modelled — the
value is kept exact. -/
def decodeParts (sg : Int) (ds frac : List Char) (ex : Int) : Rat :=
  let mant : Int := sg * (digitsToNat (ds ++ frac) : Int)
  let e : Int := ex - (frac.length : Int)
  if 0 ≤ e then (mant : Rat) * (10 : Rat) ^ e.toNat
  else (mant : Rat) / (10 : Rat) ^ (-e).toNat

/-- Optional fractional part: `'.'` followed by the (possibly empty) run of
digits; consumed only when the dot is present. -/
def scanFrac (s : List Char) : List Char × List Char :=
  match s with
  | '.' :: r => (r.takeWhile Char.isDigit, r.drop (r.takeWhile Char.isDigit).length)
  | _ => ([], s)

/-- Modelled from the spec: the number scanner of `nom::number::complete::double`,
whose source is outside this repository.  Per §4.2 it accepts "a standard
floating-point literal grammar: optional leading sign, integer digits,
optional fractional part, optional exponent part", consuming greedily, and
"fails (does not partially consume) if no character at the current position
can begin a number". -/
def scanNumber (s : List Char) : Option (Rat × List Char) :=
  let (sg, s1) := scanSign s
  let ds := s1.takeWhile Char.isDigit
  if ds.isEmpty then none
  else
    let (fd, s3) := scanFrac (s1.drop ds.length)
    let (ex, s4) := scanExp s3
    some (decodeParts sg ds fd ex, s4)

/-- `parse_number`: `double(input)` as a nom parser. -/
def parse_number (s : List Char) : PResult Rat :=
  match scanNumber s with
  | some (q, r) => .ok r q
  | none => .err

/-! ## The value tree (`JsonValue` of `src/parser.rs`) -/

/-- `JsonValue`.  `Object` holds the contents of the Rust `HashMap<String,
JsonValue>` as an association list with unique keys (built by `collectHM`
below, which mirrors `HashMap::from_iter`'s insert-overwriting);
`Number` holds the exact rational value of the literal (see `decodeParts`). -/
inductive JsonValue where
  | String (s : List Char)
  | Bool (b : Bool)
  | Null
  | Number (q : Rat)
  | Object (m : List (List Char × JsonValue))
  | Array (l : List JsonValue)

/-- One `HashMap::insert`: overwrites the value when the key is present,
appends a fresh entry otherwise. -/
def hmInsert (m : List (List Char × JsonValue)) (k : List Char) (v : JsonValue) :
    List (List Char × JsonValue) :=
  match m with
  | [] => [(k, v)]
  | (k', v') :: t => if k' = k then (k', v) :: t else (k', v') :: hmInsert t k v

/-- `HashMap::from_iter` over the parsed pair list (the `.collect()` in
`parse_object`): inserts pairs in document order, so a repeated key keeps the
value of its last occurrence. -/
def collectHM (l : List (List Char × JsonValue)) : List (List Char × JsonValue) :=
  l.foldl (fun m kv => hmInsert m kv.1 kv.2) []

/-- `HashMap::get`: the value stored for a key. -/
def lookupHM (m : List (List Char × JsonValue)) (k : List Char) : Option JsonValue :=
  match m with
  | [] => none
  | (k', v) :: t => if k' = k then some v else lookupHM t k

/-- `parse_bool`: `alt((map(tag("false"), |_| false), map(tag("true"), |_| true)))`. -/
def parse_bool (s : List Char) : PResult Bool :=
  porelse ((tagP (toL "false") s).pmap fun _ => false)
    ((tagP (toL "true") s).pmap fun _ => true)

/-- `parse_null`: `map(tag("null"), |_| JsonValue::Null)`. -/
def parse_null (s : List Char) : PResult JsonValue :=
  (tagP (toL "null") s).pmap fun _ => JsonValue.Null

/-! ## The mutually recursive parsers

`parse_value`, `parse_array`, `parse_object` (and the loop of
`separated_list0`) are bundled in a record built by structural recursion on a
fuel parameter; see the module comment. -/

/-- The bundle of mutually recursive parsers at one fuel level. -/
structure Parsers where
  value : List Char → PResult JsonValue
  array : List Char → PResult (List JsonValue)
  object : List Char → PResult (List (List Char × JsonValue))
  arrElems : List Char → PResult (List JsonValue)
  arrLoop : List Char → List JsonValue → PResult (List JsonValue)
  objPairs : List Char → PResult (List (List Char × JsonValue))
  objLoop : List Char → List (List Char × JsonValue) →
    PResult (List (List Char × JsonValue))
  objPair : List Char → PResult (List Char × JsonValue)

/-- Fuel-exhaustion bundle (never reached with the fuel `parse` supplies). -/
def parsersZero : Parsers where
  value _ := .err
  array _ := .err
  object _ := .err
  arrElems _ := .err
  arrLoop _ _ := .err
  objPairs _ := .err
  objLoop _ _ := .err
  objPair _ := .err

/-- One fuel level, given the bundle `P` of the level below.

* the array element parser is `delimited(parse_whitespace, parse_value,
  parse_whitespace)` — redundant around `parse_value`'s own trimming, as in
  the source;
* `arrElems`/`objPairs` are `separated_list0(sep, elem)`: if the first
  element fails recoverably the list is empty and *no input is consumed*;
  afterwards (`arrLoop`/`objLoop`) a failing element after a successful
  separator ends the list at the position *before* that separator.
  (nom's infinite-loop guard — error when the separator consumed nothing —
  cannot trigger, since `char(',')`/`tag(",")` always consume one character.)
* `objPair` is `separated_pair(delimited(ws, parse_string, ws), char(':'),
  parse_value)`. -/
def parsersStep (P : Parsers) : Parsers :=
  let arrElem : List Char → PResult JsonValue := fun s =>
    (P.value (skipWs s)).bind fun r v => .ok (skipWs r) v
  let arrLoop : List Char → List JsonValue → PResult (List JsonValue) :=
    fun s acc =>
      pcatch (charP ',' s)
        (fun r _ =>
          pcatch (arrElem r) (fun r2 v => P.arrLoop r2 (acc ++ [v])) (.ok s acc))
        (.ok s acc)
  let arrElems : List Char → PResult (List JsonValue) := fun s =>
    pcatch (arrElem s) (fun r v => arrLoop r [v]) (.ok s [])
  let array : List Char → PResult (List JsonValue) := fun s =>
    (charP '[' s).bind fun r _ =>
      (arrElems r).bind fun r2 vs =>
        (charP ']' r2).bind fun r3 _ => .ok r3 vs
  let objPair : List Char → PResult (List Char × JsonValue) := fun s =>
    (parse_string (skipWs s)).bind fun r k =>
      (charP ':' (skipWs r)).bind fun r2 _ =>
        (P.value r2).bind fun r3 v => .ok r3 (k, v)
  let objLoop : List Char → List (List Char × JsonValue) →
      PResult (List (List Char × JsonValue)) := fun s acc =>
    pcatch (tagP [','] s)
      (fun r _ =>
        pcatch (objPair r) (fun r2 kv => P.objLoop r2 (acc ++ [kv])) (.ok s acc))
      (.ok s acc)
  let objPairs : List Char → PResult (List (List Char × JsonValue)) := fun s =>
    pcatch (objPair s) (fun r kv => objLoop r [kv]) (.ok s [])
  let object : List Char → PResult (List (List Char × JsonValue)) := fun s =>
    (charP '{' s).bind fun r _ =>
      (objPairs r).bind fun r2 ps =>
        (charP '}' r2).bind fun r3 _ => .ok r3 (collectHM ps)
  let value : List Char → PResult JsonValue := fun s =>
    let t := skipWs s
    let core :=
      porelse ((parse_string t).pmap JsonValue.String)
        (porelse ((parse_bool t).pmap JsonValue.Bool)
          (porelse ((parse_number t).pmap JsonValue.Number)
            (porelse (parse_null t)
              (porelse ((object t).pmap JsonValue.Object)
                ((array t).pmap JsonValue.Array)))))
    pcatch core (fun r v => .ok (skipWs r) v) .err
  { value := value, array := array, object := object,
    arrElems := arrElems, arrLoop := arrLoop,
    objPairs := objPairs, objLoop := objLoop, objPair := objPair }

/-- The parser bundle with the given amount of fuel. -/
def parsersAux : Nat → Parsers
  | 0 => parsersZero
  | f + 1 => parsersStep (parsersAux f)

/-- `parse_value`: `context("value", delimited(parse_whitespace, alt((...)),
parse_whitespace))` at the given fuel. -/
def parse_value (f : Nat) (s : List Char) : PResult JsonValue :=
  (parsersAux f).value s

/-- `parse_array`: `context("array", delimited(char('['),
separated_list0(char(','), delimited(ws, parse_value, ws)), char(']')))`. -/
def parse_array (f : Nat) (s : List Char) : PResult (List JsonValue) :=
  (parsersAux f).array s

/-- `parse_object`: `context("object", delimited(char('{'),
map(separated_list0(tag(","), separated_pair(delimited(ws, parse_string, ws),
char(':'), parse_value)), collect), char('}')))`. -/
def parse_object (f : Nat) (s : List Char) : PResult (List (List Char × JsonValue)) :=
  (parsersAux f).object s

/-- The `separated_list0` of `parse_array` (elements parsed so far / rest). -/
def arrElemsP (f : Nat) (s : List Char) : PResult (List JsonValue) :=
  (parsersAux f).arrElems s

/-- The continuation loop of `parse_array`'s `separated_list0`. -/
def arrLoopP (f : Nat) (s : List Char) (acc : List JsonValue) :
    PResult (List JsonValue) :=
  (parsersAux f).arrLoop s acc

/-- The `separated_list0` of `parse_object`. -/
def objPairsP (f : Nat) (s : List Char) : PResult (List (List Char × JsonValue)) :=
  (parsersAux f).objPairs s

/-- The continuation loop of `parse_object`'s `separated_list0`. -/
def objLoopP (f : Nat) (s : List Char) (acc : List (List Char × JsonValue)) :
    PResult (List (List Char × JsonValue)) :=
  (parsersAux f).objLoop s acc

/-- The pair parser of `parse_object`. -/
def objPairP (f : Nat) (s : List Char) : PResult (List Char × JsonValue) :=
  (parsersAux f).objPair s

/-- `parse_root`: `delimited(parse_whitespace, alt((map(parse_object,
JsonValue::Object), map(parse_array, JsonValue::Array))), parse_whitespace)` —
only an object or an array is accepted at the root. -/
def parse_root (f : Nat) (s : List Char) : PResult JsonValue :=
  let t := skipWs s
  pcatch
    (porelse ((parse_object f t).pmap JsonValue.Object)
      ((parse_array f t).pmap JsonValue.Array))
    (fun r v => .ok (skipWs r) v) .err

/-- Outcome of the public `parse` of `src/lib.rs`.  The four error-side
constructors model the four arms of its `match`:
`fatal` is `Err("failure")` (from `Err::Incomplete | Err::Failure` — the
generic internal-failure message), `syntaxErr` is `Err(convert_error(...))`
(the context-trace syntax error), `trailingData` is `Err("错误")` (the fixed
trailing-data indicator), and `panicked` models process abort. -/
inductive ParseResult where
  | ok (v : JsonValue)
  | syntaxErr
  | trailingData
  | fatal
  | panicked

/-- `parse(s)` of `src/lib.rs`, with fuel `s.length + 2` (sufficient for every
derivable input; see the completeness lemmas). -/
def parse (s : List Char) : ParseResult :=
  match parse_root (s.length + 2) s with
  | .fail => .fatal
  | .err => .syntaxErr
  | .panic => .panicked
  | .ok rest v => if rest.length > 0 then .trailingData else .ok v

/-! ## The grammar of spec §6

The relations below are written from the specification's EBNF, not from the
code: `DocG o t v` states that the text `t` derives `document` with
denotation `v` (string chunks escape-decoded per the §4.3 table, numbers
decoded by `decodeParts`, objects reduced to a last-occurrence-wins mapping
per §3/§4.7).

They are parameterized by three switches covering the points where the code
is *stricter* than the spec's grammar; the spec's grammar is `gramSpec`
(everything allowed), and `gramAmended` is the largest sublanguage the
completeness theorem holds for. -/

/-- Strictness switches for the §6 grammar (see `gramSpec`/`gramAmended`). -/
structure GOpts where
  /-- allow interior whitespace in an empty object, `"{" ws "}"`,
  as the literal §6 production does -/
  wsEmptyObj : Bool
  /-- allow `\u` escapes whose hex value is a UTF-16 surrogate -/
  surEsc : Bool
  /-- allow a raw U+007F as a `normal_char` (§6 excludes only 0x00-0x1F) -/
  rawDel : Bool

/-- The grammar exactly as §6 states it. -/
def gramSpec : GOpts := ⟨true, true, true⟩

/-- The amended grammar: no interior whitespace in `{}`, no surrogate `\u`
escapes, no raw U+007F in strings. -/
def gramAmended : GOpts := ⟨false, false, false⟩

/-- §6 `normal_char`: any char except backslash, quote, or ASCII control
(0x00-0x1F); without `rawDel` also not U+007F. -/
def normalCharG (o : GOpts) (c : Char) : Bool :=
  !(c = '\\' || c = '"' || decide (c.toNat ≤ 0x1F)) &&
    (o.rawDel || decide (c.toNat ≠ 0x7F))

/-- §6 `ws`: a possibly empty run of space, tab, newline, carriage return. -/
def WsG (w : List Char) : Prop := w.all isWsChar = true

/-- The value of a 4-hex-digit escape, digit by digit (agrees with
`hexVal?`, see `hexVal?_quad`). -/
def hexQuad (d1 d2 d3 d4 : Char) : Nat :=
  ((hexDigitVal d1 * 16 + hexDigitVal d2) * 16 + hexDigitVal d3) * 16 + hexDigitVal d4

/-- §6 `escape` after the backslash, with its decoded character, per the
§4.3 table. -/
inductive EscG (o : GOpts) : List Char → Char → Prop where
  | quote : EscG o ['"'] '"'
  | back : EscG o ['\\'] '\\'
  | slash : EscG o ['/'] '/'
  | bsp : EscG o ['b'] (Char.ofNat 0x08)
  | ffd : EscG o ['f'] (Char.ofNat 0x0C)
  | nl : EscG o ['n'] '\n'
  | cr : EscG o ['r'] '\r'
  | tab : EscG o ['t'] '\t'
  | hex (d1 d2 d3 d4 : Char)
      (h1 : isHexDigitCh d1 = true) (h2 : isHexDigitCh d2 = true)
      (h3 : isHexDigitCh d3 = true) (h4 : isHexDigitCh d4 = true)
      (hs : o.surEsc = true ∨
        ¬(0xD800 ≤ hexQuad d1 d2 d3 d4 ∧ hexQuad d1 d2 d3 d4 ≤ 0xDFFF)) :
      EscG o ['u', d1, d2, d3, d4] (Char.ofNat (hexQuad d1 d2 d3 d4))

/-- §6 string body `(normal_char+ | escape)*` with its decoding, one normal
character at a time (`(normal_char+ | escape)*` and
`(normal_char | escape)*` generate the same language). -/
inductive ChunksG (o : GOpts) : List Char → List Char → Prop where
  | nil : ChunksG o [] []
  | norm (c : Char) (t d : List Char) (h : normalCharG o c = true)
      (ht : ChunksG o t d) : ChunksG o (c :: t) (c :: d)
  | esc (e : List Char) (c : Char) (t d : List Char) (he : EscG o e c)
      (ht : ChunksG o t d) : ChunksG o ('\\' :: (e ++ t)) (c :: d)

/-- §6 `string` (the `"\"\""` alternative is the `body = []` case). -/
inductive StrG (o : GOpts) : List Char → List Char → Prop where
  | mk (body d : List Char) (h : ChunksG o body d) :
      StrG o ('"' :: body ++ ['"']) d

/-- An optional sign, with its value. -/
inductive SignG : List Char → Int → Prop where
  | none : SignG [] 1
  | plus : SignG ['+'] 1
  | minus : SignG ['-'] (-1)

/-- §6 number, optional fractional part: nothing, or `'.'` and the digits. -/
inductive FracG : List Char → List Char → Prop where
  | none : FracG [] []
  | mk (fs : List Char) (h : fs.all Char.isDigit = true) : FracG ('.' :: fs) fs

/-- §6 number, optional exponent part, with its signed value. -/
inductive ExpG : List Char → Int → Prop where
  | none : ExpG [] 0
  | mk (e : Char) (sg : List Char) (sgn : Int) (eds : List Char)
      (he : e = 'e' ∨ e = 'E') (hs : SignG sg sgn)
      (hne : eds ≠ []) (hd : eds.all Char.isDigit = true) :
      ExpG (e :: (sg ++ eds)) (sgn * (digitsToNat eds : Int))

/-- §6 `number` (`sign? digits frac? exp?`) with its exact decoded value. -/
inductive NumG : List Char → Rat → Prop where
  | mk (sg : List Char) (sgn : Int) (ds ft fd et : List Char) (ex : Int)
      (hs : SignG sg sgn) (hne : ds ≠ []) (hd : ds.all Char.isDigit = true)
      (hf : FracG ft fd) (he : ExpG et ex) :
      NumG (sg ++ (ds ++ (ft ++ et))) (decodeParts sgn ds fd ex)

mutual
/-- §6 `value` with its denotation. -/
inductive ValG (o : GOpts) : List Char → JsonValue → Prop where
  | str (w1 w2 raw d : List Char) (hw1 : WsG w1) (hw2 : WsG w2)
      (h : StrG o raw d) : ValG o (w1 ++ (raw ++ w2)) (.String d)
  | btrue (w1 w2 : List Char) (hw1 : WsG w1) (hw2 : WsG w2) :
      ValG o (w1 ++ (toL "true" ++ w2)) (.Bool true)
  | bfalse (w1 w2 : List Char) (hw1 : WsG w1) (hw2 : WsG w2) :
      ValG o (w1 ++ (toL "false" ++ w2)) (.Bool false)
  | nul (w1 w2 : List Char) (hw1 : WsG w1) (hw2 : WsG w2) :
      ValG o (w1 ++ (toL "null" ++ w2)) .Null
  | num (w1 w2 t : List Char) (q : Rat) (hw1 : WsG w1) (hw2 : WsG w2)
      (h : NumG t q) : ValG o (w1 ++ (t ++ w2)) (.Number q)
  | obj (w1 w2 t : List Char) (ps : List (List Char × JsonValue))
      (hw1 : WsG w1) (hw2 : WsG w2) (h : ObjG o t ps) :
      ValG o (w1 ++ (t ++ w2)) (.Object (collectHM ps))
  | arr (w1 w2 t : List Char) (vs : List JsonValue)
      (hw1 : WsG w1) (hw2 : WsG w2) (h : ArrG o t vs) :
      ValG o (w1 ++ (t ++ w2)) (.Array vs)

/-- §6 `array`. -/
inductive ArrG (o : GOpts) : List Char → List JsonValue → Prop where
  | nil : ArrG o ['[', ']'] []
  | cons (body : List Char) (vs : List JsonValue) (h : ElemsG o body vs) :
      ArrG o ('[' :: body ++ [']']) vs

/-- §6 `value ("," value)*`. -/
inductive ElemsG (o : GOpts) : List Char → List JsonValue → Prop where
  | one (t : List Char) (v : JsonValue) (h : ValG o t v) : ElemsG o t [v]
  | cons (t : List Char) (v : JsonValue) (rest : List Char)
      (vs : List JsonValue) (h : ValG o t v) (hr : ElemsG o rest vs) :
      ElemsG o (t ++ ',' :: rest) (v :: vs)

/-- §6 `object`; the pair list is kept in document order (the §3 reduction
to a mapping happens in `ValG.obj`/`DocG.obj` via `collectHM`). -/
inductive ObjG (o : GOpts) : List Char → List (List Char × JsonValue) → Prop where
  | nil (w : List Char) (hw : WsG w) (hcode : o.wsEmptyObj = true ∨ w = []) :
      ObjG o ('{' :: w ++ ['}']) []
  | cons (w body w2 : List Char) (ps : List (List Char × JsonValue))
      (hw : WsG w) (hw2 : WsG w2) (h : PairsG o body ps) :
      ObjG o ('{' :: w ++ (body ++ (w2 ++ ['}']))) ps

/-- §6 `pair ("," pair)*`. -/
inductive PairsG (o : GOpts) : List Char → List (List Char × JsonValue) → Prop where
  | one (t : List Char) (p : List Char × JsonValue) (h : PairG o t p) :
      PairsG o t [p]
  | cons (t : List Char) (p : List Char × JsonValue) (rest : List Char)
      (ps : List (List Char × JsonValue)) (h : PairG o t p)
      (hr : PairsG o rest ps) : PairsG o (t ++ ',' :: rest) (p :: ps)

/-- §6 `pair := ws string ws ":" value`. -/
inductive PairG (o : GOpts) : List Char → List Char × JsonValue → Prop where
  | mk (w1 kraw w2 vt : List Char) (k : List Char) (v : JsonValue)
      (hw1 : WsG w1) (hk : StrG o kraw k) (hw2 : WsG w2) (hv : ValG o vt v) :
      PairG o (w1 ++ (kraw ++ (w2 ++ ':' :: vt))) (k, v)
end

/-- §6 `document := ws (object | array) ws`, with the §3 object reduction. -/
inductive DocG (o : GOpts) : List Char → JsonValue → Prop where
  | obj (w1 w2 t : List Char) (ps : List (List Char × JsonValue))
      (hw1 : WsG w1) (hw2 : WsG w2) (h : ObjG o t ps) :
      DocG o (w1 ++ (t ++ w2)) (.Object (collectHM ps))
  | arr (w1 w2 t : List Char) (vs : List JsonValue)
      (hw1 : WsG w1) (hw2 : WsG w2) (h : ArrG o t vs) :
      DocG o (w1 ++ (t ++ w2)) (.Array vs)

/-! ## Basic lemmas about the lexical primitives -/

theorem skipWs_ws_append (w s : List Char) (hw : WsG w) :
    skipWs (w ++ s) = skipWs s := by
  induction w with
  | nil => rfl
  | cons c t ih =>
    have hc : isWsChar c = true := by
      have := hw
      simp [WsG, List.all_cons] at this
      exact this.1
    have ht : WsG t := by
      have := hw
      simp [WsG, List.all_cons] at this
      simpa [WsG] using this.2
    simp [skipWs, List.dropWhile, hc]
    exact ih ht

theorem skipWs_nonws (c : Char) (s : List Char) (h : isWsChar c = false) :
    skipWs (c :: s) = c :: s := by
  simp [skipWs, List.dropWhile, h]

theorem skipWs_nil : skipWs [] = [] := rfl

theorem skipWs_idem (s : List Char) : skipWs (skipWs s) = skipWs s := by
  induction s with
  | nil => rfl
  | cons c t ih =>
    by_cases h : isWsChar c = true
    · simp [skipWs, List.dropWhile, h] at ih ⊢
      exact ih
    · have h' : isWsChar c = false := by simpa using h
      simp [skipWs, List.dropWhile, h']

theorem takeWhile_all_append (p : Char → Bool) (l l' : List Char)
    (h : l.all p = true) (h' : l' = [] ∨ ∃ c t, l' = c :: t ∧ p c = false) :
    (l ++ l').takeWhile p = l ∧ (l ++ l').dropWhile p = l' := by
  induction l with
  | nil =>
    rcases h' with h' | ⟨c, t, rfl, hc⟩
    · subst h'; exact ⟨rfl, rfl⟩
    · simp [List.takeWhile, List.dropWhile, hc]
  | cons a l ih =>
    rw [List.all_cons, Bool.and_eq_true] at h
    have ha : p a = true := h.1
    have hl : l.all p = true := h.2
    have := ih hl
    simp [List.takeWhile, List.dropWhile, ha, this.1, this.2]

theorem tagP_exact (t k : List Char) : tagP t (t ++ k) = .ok k t := by
  have hp : t.isPrefixOf (t ++ k) = true := by
    induction t with
    | nil => simp [List.isPrefixOf]
    | cons a t ih => simp [List.isPrefixOf, ih]
  simp [tagP, hp, List.drop_left]

theorem tagP_err_head (c c' : Char) (t' s : List Char) (h : c' ≠ c) :
    tagP (c' :: t') (c :: s) = .err := by
  have : (c' :: t').isPrefixOf (c :: s) = false := by
    simp [List.isPrefixOf]
    intro hc
    exact absurd hc h
  simp [tagP, this]

theorem tagP_err_nil (c' : Char) (t' : List Char) :
    tagP (c' :: t') [] = .err := by
  simp [tagP, List.isPrefixOf]

theorem charP_ok (c : Char) (s : List Char) : charP c (c :: s) = .ok s c := by
  simp [charP]

theorem charP_err (c c' : Char) (s : List Char) (h : c' ≠ c) :
    charP c (c' :: s) = .err := by
  simp [charP, h]

theorem charP_err_nil (c : Char) : charP c [] = .err := rfl

/-! ## Unfolding equations for the fuel-indexed parsers -/


theorem parse_value_zero (s : List Char) : parse_value 0 s = .err := rfl

theorem parse_array_zero (s : List Char) : parse_array 0 s = .err := rfl

theorem parse_object_zero (s : List Char) : parse_object 0 s = .err := rfl

theorem parse_value_succ (f : Nat) (s : List Char) :
    parse_value (f + 1) s =
      pcatch
        (porelse ((parse_string (skipWs s)).pmap JsonValue.String)
          (porelse ((parse_bool (skipWs s)).pmap JsonValue.Bool)
            (porelse ((parse_number (skipWs s)).pmap JsonValue.Number)
              (porelse (parse_null (skipWs s))
                (porelse ((parse_object (f + 1) (skipWs s)).pmap JsonValue.Object)
                  ((parse_array (f + 1) (skipWs s)).pmap JsonValue.Array))))))
        (fun r v => .ok (skipWs r) v) .err := rfl

theorem parse_array_succ (f : Nat) (s : List Char) :
    parse_array (f + 1) s =
      (charP '[' s).bind fun r _ =>
        (arrElemsP (f + 1) r).bind fun r2 vs =>
          (charP ']' r2).bind fun r3 _ => .ok r3 vs := rfl

theorem parse_object_succ (f : Nat) (s : List Char) :
    parse_object (f + 1) s =
      (charP '{' s).bind fun r _ =>
        (objPairsP (f + 1) r).bind fun r2 ps =>
          (charP '}' r2).bind fun r3 _ => .ok r3 (collectHM ps) := rfl

theorem arrElemsP_succ (f : Nat) (s : List Char) :
    arrElemsP (f + 1) s =
      pcatch ((parse_value f (skipWs s)).bind fun r v => .ok (skipWs r) v)
        (fun r v => arrLoopP (f + 1) r [v]) (.ok s []) := rfl

theorem arrLoopP_succ (f : Nat) (s : List Char) (acc : List JsonValue) :
    arrLoopP (f + 1) s acc =
      pcatch (charP ',' s)
        (fun r _ =>
          pcatch ((parse_value f (skipWs r)).bind fun r2 v => .ok (skipWs r2) v)
            (fun r2 v => arrLoopP f r2 (acc ++ [v])) (.ok s acc))
        (.ok s acc) := rfl

theorem objPairP_succ (f : Nat) (s : List Char) :
    objPairP (f + 1) s =
      (parse_string (skipWs s)).bind fun r k =>
        (charP ':' (skipWs r)).bind fun r2 _ =>
          (parse_value f r2).bind fun r3 v => .ok r3 (k, v) := rfl

theorem objPairsP_succ (f : Nat) (s : List Char) :
    objPairsP (f + 1) s =
      pcatch (objPairP (f + 1) s) (fun r kv => objLoopP (f + 1) r [kv])
        (.ok s []) := rfl

theorem objLoopP_succ (f : Nat) (s : List Char) (acc : List (List Char × JsonValue)) :
    objLoopP (f + 1) s acc =
      pcatch (tagP [','] s)
        (fun r _ =>
          pcatch (objPairP (f + 1) r) (fun r2 kv => objLoopP f r2 (acc ++ [kv]))
            (.ok s acc))
        (.ok s acc) := rfl


/-! ## String-decoder lemmas -/

theorem hexVal?_quad (d1 d2 d3 d4 : Char)
    (h1 : isHexDigitCh d1 = true) (h2 : isHexDigitCh d2 = true)
    (h3 : isHexDigitCh d3 = true) (h4 : isHexDigitCh d4 = true) :
    hexVal? [d1, d2, d3, d4] = some (hexQuad d1 d2 d3 d4) := by
  simp [hexVal?, h1, h2, h3, h4, hexQuad, List.foldl]

theorem drop_takeWhile_len (l : List Char) (p : Char → Bool) :
    l.drop (l.takeWhile p).length = l.dropWhile p := by
  have h := List.drop_left (l.takeWhile p) (l.dropWhile p)
  rwa [List.takeWhile_append_dropWhile] at h

theorem normal_str_stop_head (c : Char) (s : List Char) (h : stopChar c = true) :
    normal_str (c :: s) = none := by
  simp [normal_str, List.takeWhile, h]

theorem normal_str_run (c : Char) (s : List Char) (h : stopChar c = false) :
    normal_str (c :: s) =
      some (c :: s.takeWhile (fun x => !stopChar x),
        s.dropWhile (fun x => !stopChar x)) := by
  simp [normal_str, List.takeWhile, h, drop_takeWhile_len]

theorem stopChar_backslash : stopChar '\\' = true := by decide

theorem normalCharG_not_stop (c : Char) (h : normalCharG gramAmended c = true) :
    stopChar c = false := by
  simp [normalCharG, gramAmended] at h
  simp [stopChar, isAsciiControl]
  exact ⟨h.1.1, h.1.2, h.2⟩

/-- Peeling one leading normal character off a string-body derivation. -/
theorem chunksG_peel (c : Char) (t d : List Char)
    (h : ChunksG gramAmended (c :: t) d) (hc : stopChar c = false) :
    ∃ d', d = c :: d' ∧ ChunksG gramAmended t d' := by
  cases h with
  | norm cc tt dd hn ht => exact ⟨dd, rfl, ht⟩
  | esc e ch tt dd he ht =>
    rw [stopChar_backslash] at hc
    exact absurd hc (by simp)

/-- Peeling a whole run of normal characters. -/
theorem chunksG_peel_run (rb : List Char) : ∀ (rest d : List Char),
    ChunksG gramAmended (rb ++ rest) d → (∀ c ∈ rb, stopChar c = false) →
    ∃ d', d = rb ++ d' ∧ ChunksG gramAmended rest d' := by
  induction rb with
  | nil => intro rest d h _; exact ⟨d, rfl, h⟩
  | cons c rb ih =>
    intro rest d h hall
    have hc : stopChar c = false := hall c (by simp)
    obtain ⟨d1, rfl, h1⟩ := chunksG_peel c (rb ++ rest) d h hc
    obtain ⟨d2, rfl, h2⟩ := ih rest d1 h1 (fun x hx => hall x (by simp [hx]))
    exact ⟨d2, rfl, h2⟩

/-- `escapable` consumes exactly one grammar escape (the part after the
backslash) and decodes it per the §4.3 table. -/
theorem escapable_escG (e : List Char) (ch : Char)
    (he : EscG gramAmended e ch) (r : List Char) :
    escapable (e ++ r) = .ok r ch := by
  cases he with
  | quote => rfl
  | back => rfl
  | slash => rfl
  | bsp => rfl
  | ffd => rfl
  | nl => rfl
  | cr => rfl
  | tab => rfl
  | hex d1 d2 d3 d4 h1 h2 h3 h4 hs =>
    show escapable ('u' :: (d1 :: d2 :: d3 :: d4 :: r)) = _
    rw [escapable]
    rw [if_neg (by decide), if_neg (by decide), if_neg (by decide),
      if_neg (by decide), if_neg (by decide), if_neg (by decide),
      if_neg (by decide), if_neg (by decide)]
    have hx : ∀ c : Char, isHexDigitCh c = true → hexOrU c = true := by
      intro c hc; simp [hexOrU, hc]
    have htw : 4 ≤ ((d1 :: d2 :: d3 :: d4 :: r).takeWhile hexOrU).length := by
      simp [List.takeWhile, hx d1 h1, hx d2 h2, hx d3 h3, hx d4 h4]
    have hq : hexVal? ((d1 :: d2 :: d3 :: d4 :: r).take 4) =
        some (hexQuad d1 d2 d3 d4) := by
      show hexVal? [d1, d2, d3, d4] = _
      exact hexVal?_quad d1 d2 d3 d4 h1 h2 h3 h4
    have hns : (0xD800 ≤ hexQuad d1 d2 d3 d4 && hexQuad d1 d2 d3 d4 ≤ 0xDFFF) = false := by
      rcases hs with hs | hs
      · simp [gramAmended] at hs
      · rw [Bool.and_eq_false_iff]
        by_cases hlo : 0xD800 ≤ hexQuad d1 d2 d3 d4
        · right; simp; omega
        · left; simp; omega
    rw [hex_char]
    rw [if_pos htw, hq]
    simp [hns]

theorem all_takeWhile (p : Char → Bool) (l : List Char) :
    (l.takeWhile p).all p = true := by
  induction l with
  | nil => rfl
  | cons a l ih =>
    by_cases h : p a = true
    · simp [List.takeWhile, h, ih]
    · have h' : p a = false := by simpa using h
      simp [List.takeWhile, h']

theorem takeWhile_append_stop (p : Char → Bool) (l : List Char)
    (c : Char) (cs : List Char) (hc : p c = false) :
    (l ++ c :: cs).takeWhile p = l.takeWhile p ∧
      (l ++ c :: cs).dropWhile p = l.dropWhile p ++ c :: cs := by
  induction l with
  | nil => simp [List.takeWhile, List.dropWhile, hc]
  | cons a l ih =>
    by_cases h : p a = true
    · simp [List.takeWhile, List.dropWhile, h, ih.1, ih.2]
    · have h' : p a = false := by simpa using h
      simp [List.takeWhile, List.dropWhile, h']

theorem escG_len (e : List Char) (ch : Char) (he : EscG gramAmended e ch) :
    1 ≤ e.length := by
  cases he <;> simp


/-- The core of the decoder: running the loop of `escaped_transform` over a
derivable string body followed by the closing quote consumes exactly the
body, stops at the quote, and appends the body's decoding to the
accumulator. -/
theorem escGo_chunks (n : Nat) : ∀ (body d k acc : List Char) (α : Bool) (f : Nat),
    body.length ≤ n → ChunksG gramAmended body d → (body = [] → α = false) →
    body.length + k.length + 2 ≤ f →
    escGo f α (body ++ '"' :: k) acc = .ok ('"' :: k) (acc ++ d) := by
  induction n with
  | zero =>
    intro body d k acc α f hlen hch hα hf
    have hb : body = [] := by
      cases body with
      | nil => rfl
      | cons c t => simp at hlen
    subst hb
    cases hch
    have hα' : α = false := hα rfl
    subst hα'
    obtain ⟨f', rfl⟩ : ∃ f', f = f' + 1 := ⟨f - 1, by omega⟩
    show escGo (f' + 1) false ('"' :: k) acc = .ok ('"' :: k) (acc ++ [])
    simp only [escGo]
    rw [normal_str_stop_head '"' k (by decide)]
    simp
  | succ n ih =>
    intro body d k acc α f hlen hch hα hf
    cases body with
    | nil =>
      cases hch
      have hα' : α = false := hα rfl
      subst hα'
      obtain ⟨f', rfl⟩ : ∃ f', f = f' + 1 := ⟨f - 1, by omega⟩
      show escGo (f' + 1) false ('"' :: k) acc = .ok ('"' :: k) (acc ++ [])
      simp only [escGo]
      rw [normal_str_stop_head '"' k (by decide)]
      simp
    | cons c t =>
      obtain ⟨f', rfl⟩ : ∃ f', f = f' + 1 := ⟨f - 1, by omega⟩
      by_cases hstop : stopChar c = true
      · -- the derivation must start with a backslash escape
        cases hch with
        | norm cc tt dd hn ht =>
          rw [normalCharG_not_stop c hn] at hstop
          exact absurd hstop (by simp)
        | esc e ch tt dd he ht =>
          have hA : ('\\' :: (e ++ tt)) ++ '"' :: k = '\\' :: (e ++ (tt ++ '"' :: k)) := by
            simp
          show escGo (f' + 1) α (('\\' :: (e ++ tt)) ++ '"' :: k) acc = _
          rw [hA]
          simp only [escGo]
          rw [normal_str_stop_head '\\' _ stopChar_backslash]
          have hne : (e ++ (tt ++ '"' :: k)).isEmpty = false := by
            cases e <;> simp
          have hne2 : (tt ++ '"' :: k).isEmpty = false := by
            cases tt <;> simp
          have hel := escG_len e ch he
          have h1 : tt.length ≤ n := by simp at hlen; omega
          have h2 : tt.length + k.length + 2 ≤ f' := by simp at hf; omega
          have hih := ih tt dd k (acc ++ [ch]) false f' h1 ht (fun _ => rfl) h2
          simp [hne, hne2, escapable_escG e ch he (tt ++ '"' :: k), hih]
      · -- normal-run case
        have hstop' : stopChar c = false := by simpa using hstop
        have hsplit := takeWhile_append_stop (fun x => !stopChar x) t '"' k
          (by decide)
        have hA : (c :: t) ++ '"' :: k = c :: (t ++ '"' :: k) := rfl
        rw [hA]
        simp only [escGo]
        rw [normal_str_run c _ hstop', hsplit.1, hsplit.2]
        have hne : (t.dropWhile (fun x => !stopChar x) ++ '"' :: k).isEmpty = false := by
          cases h : t.dropWhile (fun x => !stopChar x) <;> simp
        have hdec : c :: t =
            (c :: t.takeWhile (fun x => !stopChar x)) ++ t.dropWhile (fun x => !stopChar x) := by
          simp [List.takeWhile_append_dropWhile]
        have hrun : ∀ x ∈ c :: t.takeWhile (fun x => !stopChar x), stopChar x = false := by
          intro x hx
          cases hx with
          | head => exact hstop'
          | tail _ hx =>
            have := all_takeWhile (fun x => !stopChar x) t
            rw [List.all_eq_true] at this
            simpa using this x hx
        obtain ⟨d', hd, hrest⟩ := chunksG_peel_run
          (c :: t.takeWhile (fun x => !stopChar x))
          (t.dropWhile (fun x => !stopChar x)) d (by rw [← hdec]; exact hch) hrun
        have hlens : (t.takeWhile (fun x => !stopChar x)).length +
            (t.dropWhile (fun x => !stopChar x)).length = t.length := by
          rw [← List.length_append, List.takeWhile_append_dropWhile]
        have h1 : (t.dropWhile (fun x => !stopChar x)).length ≤ n := by
          simp at hlen; omega
        have h2 : (t.dropWhile (fun x => !stopChar x)).length + k.length + 2 ≤ f' := by
          simp at hf; omega
        have hih := ih (t.dropWhile (fun x => !stopChar x)) d' k
          (acc ++ (c :: t.takeWhile (fun x => !stopChar x))) false f' h1 hrest
          (fun _ => rfl) h2
        simp [hne, hih, hd]

/-- A derivable string body starts with a normal character or a backslash,
never with a quote. -/
theorem chunksG_head_ne_quote (c : Char) (t d : List Char)
    (h : ChunksG gramAmended (c :: t) d) : c ≠ '"' := by
  cases h with
  | norm cc tt dd hn ht =>
    intro hq
    have := normalCharG_not_stop c hn
    rw [hq] at this
    simp [stopChar] at this
  | esc e ch tt dd he ht => decide

/-- `parse_string` consumes exactly a grammar string (quotes included) and
returns its decoding, for any continuation. -/
theorem parse_string_strG (raw d : List Char) (h : StrG gramAmended raw d)
    (k : List Char) : parse_string (raw ++ k) = .ok k d := by
  cases h with
  | mk body dd hch =>
    cases body with
    | nil =>
      cases hch
      show parse_string ('"' :: '"' :: k) = .ok k []
      rfl
    | cons c t =>
      have hcq : c ≠ '"' := chunksG_head_ne_quote c t d hch
      have hgo : parse_str (c :: (t ++ '"' :: k)) = .ok ('"' :: k) d := by
        show escGo ((c :: (t ++ '"' :: k)).length + 1) true (c :: (t ++ '"' :: k)) [] = _
        have := escGo_chunks (c :: t).length (c :: t) d k [] true
          ((c :: (t ++ '"' :: k)).length + 1) (le_refl _) hch (by simp)
          (by simp; omega)
        simpa using this
      have hA : ('"' :: (c :: t) ++ ['"']) ++ k = '"' :: (c :: (t ++ '"' :: k)) := by
        simp
      have hside : ∀ r1 : List Char, c :: (t ++ '"' :: k) = '"' :: r1 → False := by
        intro r1 heq
        injection heq with h1 h2
        exact hcq h1
      rw [hA, parse_string.eq_2 _ hside, hgo]
      rfl

/-! ## Number-scanner lemmas -/

/-- Characters after a complete numeral that cannot extend it. -/
def numFollow (k : List Char) : Prop :=
  ∀ c cs, k = c :: cs → c.isDigit = false ∧ c ≠ '.' ∧ c ≠ 'e' ∧ c ≠ 'E'

theorem scanSign_other (s : List Char)
    (h : ∀ c cs, s = c :: cs → c ≠ '+' ∧ c ≠ '-') : scanSign s = (1, s) := by
  cases s with
  | nil => rfl
  | cons c cs =>
    have := h c cs rfl
    rw [scanSign.eq_def]
    split
    · next heq => injection heq with h1 h2; exact absurd h1 this.1
    · next heq => injection heq with h1 h2; exact absurd h1 this.2
    · rfl

theorem scanSign_signG (sg : List Char) (sgn : Int) (hs : SignG sg sgn)
    (r : List Char) (hr : ∀ c cs, r = c :: cs → c ≠ '+' ∧ c ≠ '-') :
    scanSign (sg ++ r) = (sgn, r) := by
  cases hs with
  | none => exact scanSign_other r hr
  | plus => rfl
  | minus => rfl

theorem digit_ne_signs (c : Char) (h : c.isDigit = true) :
    c ≠ '+' ∧ c ≠ '-' := by
  constructor <;> intro heq <;> rw [heq] at h <;> exact absurd h (by decide)

/-- `scanExp` consumes exactly a grammar exponent part when the continuation
cannot extend it. -/
theorem scanExp_expG (et : List Char) (ex : Int) (he : ExpG et ex)
    (k : List Char) (hk : numFollow k) : scanExp (et ++ k) = (ex, k) := by
  cases he with
  | none =>
    cases k with
    | nil => rfl
    | cons c cs =>
      obtain ⟨hd, hdot, hee, hEE⟩ := hk c cs rfl
      show scanExp (c :: cs) = (0, c :: cs)
      rw [scanExp]
      rw [if_neg (by simp [hee, hEE])]
  | mk e sg sgn eds hee hs hne hd =>
    show scanExp (e :: ((sg ++ eds) ++ k)) = _
    rw [scanExp]
    rw [if_pos (by rcases hee with h | h <;> simp [h])]
    have heds : ∀ c cs, eds ++ k = c :: cs → c ≠ '+' ∧ c ≠ '-' := by
      intro c cs heq
      cases eds with
      | nil => exact absurd rfl hne
      | cons e0 es =>
        injection heq with h1 h2
        subst h1
        rw [List.all_cons, Bool.and_eq_true] at hd
        exact digit_ne_signs e0 hd.1
    have hA : (sg ++ eds) ++ k = sg ++ (eds ++ k) := by simp
    rw [hA, scanSign_signG sg sgn hs (eds ++ k) heds]
    have htw := takeWhile_all_append Char.isDigit eds k hd
      (by
        cases k with
        | nil => exact Or.inl rfl
        | cons c cs => exact Or.inr ⟨c, cs, rfl, (hk c cs rfl).1⟩)
    simp only [htw.1]
    rw [if_neg (by simp [List.isEmpty_eq_true]; intro h; exact hne h)]
    have hdrop : (eds ++ k).drop eds.length = k := List.drop_left _ _
    simp [hdrop]

/-- `scanFrac` consumes exactly a grammar fractional part when the
continuation cannot extend it. -/
theorem scanFrac_fracG (ft fd : List Char) (hf : FracG ft fd) (r : List Char)
    (hr : ∀ c cs, r = c :: cs → c.isDigit = false ∧ c ≠ '.') :
    scanFrac (ft ++ r) = (fd, r) := by
  cases hf with
  | none =>
    show scanFrac r = ([], r)
    cases r with
    | nil => rfl
    | cons c cs =>
      obtain ⟨hd, hdot⟩ := hr c cs rfl
      rw [scanFrac.eq_def]
      split
      · next r' heq => injection heq with h1 h2; exact absurd h1 hdot
      · rfl
  | mk a hfs =>
    show scanFrac ('.' :: (fd ++ r)) = _
    rw [scanFrac]
    have htw := takeWhile_all_append Char.isDigit fd r hfs
      (by
        cases r with
        | nil => exact Or.inl rfl
        | cons c cs => exact Or.inr ⟨c, cs, rfl, (hr c cs rfl).1⟩)
    simp only [htw.1]
    simp [List.drop_left]

/-- The number scanner consumes exactly a grammar numeral when the
continuation cannot extend it, and returns its exact decoded value. -/
theorem scanNumber_numG (t : List Char) (q : Rat) (h : NumG t q)
    (k : List Char) (hk : numFollow k) : scanNumber (t ++ k) = some (q, k) := by
  cases h with
  | mk sg sgn ds ft fd et ex hs hne hd hf he =>
    have hA : (sg ++ (ds ++ (ft ++ et))) ++ k = sg ++ (ds ++ (ft ++ (et ++ k))) := by
      simp
    rw [hA]
    have hds0 : ∀ c cs, ds ++ (ft ++ (et ++ k)) = c :: cs → c ≠ '+' ∧ c ≠ '-' := by
      intro c cs heq
      cases ds with
      | nil => exact absurd rfl hne
      | cons d0 dt =>
        injection heq with h1 h2
        subst h1
        rw [List.all_cons, Bool.and_eq_true] at hd
        exact digit_ne_signs d0 hd.1
    have hstop : ft ++ (et ++ k) = [] ∨
        ∃ c cs, ft ++ (et ++ k) = c :: cs ∧ Char.isDigit c = false := by
      cases hf with
      | none =>
        cases he with
        | none =>
          cases k with
          | nil => exact Or.inl rfl
          | cons c cs => exact Or.inr ⟨c, cs, rfl, (hk c cs rfl).1⟩
        | mk e esg esgn eds hee hes hnee hde =>
          refine Or.inr ⟨e, _, rfl, ?_⟩
          rcases hee with h | h <;> rw [h] <;> decide
      | mk a hfs =>
        exact Or.inr ⟨'.', _, rfl, by decide⟩
    rw [scanNumber]
    rw [scanSign_signG sg sgn hs _ hds0]
    have htw := takeWhile_all_append Char.isDigit ds (ft ++ (et ++ k)) hd hstop
    simp only [htw.1]
    rw [if_neg (by simp [List.isEmpty_eq_true]; intro h; exact hne h)]
    have hdrop : (ds ++ (ft ++ (et ++ k))).drop ds.length = ft ++ (et ++ k) :=
      List.drop_left _ _
    rw [hdrop]
    have hfr : ∀ c cs, et ++ k = c :: cs → c.isDigit = false ∧ c ≠ '.' := by
      intro c cs heq
      cases he with
      | none =>
        obtain ⟨h1, h2, _, _⟩ := hk c cs heq
        exact ⟨h1, h2⟩
      | mk e esg esgn eds hee hes hnee hde =>
        injection heq with h1 h2
        subst h1
        rcases hee with h | h <;> rw [h] <;> exact ⟨by decide, by decide⟩
    rw [scanFrac_fracG ft fd hf (et ++ k) hfr]
    rw [scanExp_expG et ex he k hk]

theorem scanSign_split (s : List Char) :
    ∃ sg, SignG sg (scanSign s).1 ∧ s = sg ++ (scanSign s).2 := by
  cases s with
  | nil => exact ⟨[], SignG.none, rfl⟩
  | cons c cs =>
    by_cases h1 : c = '+'
    · subst h1; exact ⟨['+'], SignG.plus, rfl⟩
    · by_cases h2 : c = '-'
      · subst h2; exact ⟨['-'], SignG.minus, rfl⟩
      · have heq : scanSign (c :: cs) = (1, c :: cs) :=
          scanSign_other _ (fun c' cs' hx => by
            injection hx with a b; subst a; exact ⟨h1, h2⟩)
        rw [heq]
        exact ⟨[], SignG.none, rfl⟩

theorem scanFrac_split (s : List Char) :
    ∃ ft, FracG ft (scanFrac s).1 ∧ s = ft ++ (scanFrac s).2 := by
  cases s with
  | nil => exact ⟨[], FracG.none, rfl⟩
  | cons c cs =>
    by_cases hc : c = '.'
    · subst hc
      show ∃ ft, FracG ft (scanFrac ('.' :: cs)).1 ∧ _
      rw [scanFrac]
      refine ⟨'.' :: cs.takeWhile Char.isDigit,
        FracG.mk _ (all_takeWhile Char.isDigit cs), ?_⟩
      show '.' :: cs = '.' :: (cs.takeWhile Char.isDigit ++
        cs.drop (cs.takeWhile Char.isDigit).length)
      rw [drop_takeWhile_len, List.takeWhile_append_dropWhile]
    · have heq : scanFrac (c :: cs) = ([], c :: cs) := by
        rw [scanFrac.eq_def]
        split
        · next r' hx => injection hx with a b; exact absurd a hc
        · rfl
      rw [heq]
      exact ⟨[], FracG.none, rfl⟩

theorem scanExp_split (s : List Char) :
    ∃ et, ExpG et (scanExp s).1 ∧ s = et ++ (scanExp s).2 := by
  cases s with
  | nil => exact ⟨[], ExpG.none, rfl⟩
  | cons c cs =>
    by_cases hc : c = 'e' ∨ c = 'E'
    · obtain ⟨esg, hesg, hsplit⟩ := scanSign_split cs
      obtain ⟨es, r2, hsc⟩ : ∃ a b, scanSign cs = (a, b) := ⟨_, _, rfl⟩
      rw [hsc] at hesg hsplit
      simp only at hesg hsplit
      have hunf : scanExp (c :: cs) =
          if (r2.takeWhile Char.isDigit).isEmpty then (0, c :: cs)
          else (es * (digitsToNat (r2.takeWhile Char.isDigit) : Int),
            r2.drop (r2.takeWhile Char.isDigit).length) := by
        rw [scanExp]
        rw [if_pos (by rcases hc with h | h <;> simp [h])]
        rw [hsc]
      by_cases hemp : (r2.takeWhile Char.isDigit).isEmpty = true
      · rw [hunf, if_pos hemp]
        exact ⟨[], ExpG.none, rfl⟩
      · rw [hunf, if_neg hemp]
        refine ⟨c :: (esg ++ r2.takeWhile Char.isDigit), ?_, ?_⟩
        · exact ExpG.mk c esg es (r2.takeWhile Char.isDigit) hc hesg
            (by simpa [List.isEmpty_eq_true] using hemp)
            (all_takeWhile Char.isDigit r2)
        · show c :: cs = c :: ((esg ++ r2.takeWhile Char.isDigit) ++
            r2.drop (r2.takeWhile Char.isDigit).length)
          rw [drop_takeWhile_len]
          rw [List.append_assoc, List.takeWhile_append_dropWhile]
          rw [hsplit]
    · have heq : scanExp (c :: cs) = (0, c :: cs) := by
        rw [scanExp]
        rw [if_neg (by
          simp only [Bool.or_eq_true, decide_eq_true_eq]
          exact hc)]
      rw [heq]
      exact ⟨[], ExpG.none, rfl⟩

/-- The scanner succeeds exactly when a grammar numeral begins at the current
position. -/
theorem scanNumber_some_iff (s : List Char) :
    (∃ q r, scanNumber s = some (q, r)) ↔
      ∃ lit rest q, s = lit ++ rest ∧ NumG lit q := by
  constructor
  · rintro ⟨q, r, hq⟩
    obtain ⟨sg, hsg, hsgs⟩ := scanSign_split s
    obtain ⟨sgn, s1, hsc⟩ : ∃ a b, scanSign s = (a, b) := ⟨_, _, rfl⟩
    rw [hsc] at hsg hsgs
    simp only at hsg hsgs
    rw [scanNumber, hsc] at hq
    simp only at hq
    by_cases hemp : (s1.takeWhile Char.isDigit).isEmpty = true
    · rw [if_pos hemp] at hq
      exact absurd hq (by simp)
    · rw [if_neg hemp] at hq
      obtain ⟨ft, hft, hfts⟩ := scanFrac_split (s1.drop (s1.takeWhile Char.isDigit).length)
      obtain ⟨fd, s3, hscf⟩ : ∃ a b,
          scanFrac (s1.drop (s1.takeWhile Char.isDigit).length) = (a, b) := ⟨_, _, rfl⟩
      rw [hscf] at hft hfts hq
      simp only at hft hfts hq
      obtain ⟨et, het, hets⟩ := scanExp_split s3
      obtain ⟨ex, s4, hsce⟩ : ∃ a b, scanExp s3 = (a, b) := ⟨_, _, rfl⟩
      rw [hsce] at het hets hq
      simp only at het hets hq
      refine ⟨sg ++ (s1.takeWhile Char.isDigit ++ (ft ++ et)), s4,
        decodeParts sgn (s1.takeWhile Char.isDigit) fd ex, ?_, ?_⟩
      · have hs1 : s1 = s1.takeWhile Char.isDigit ++ (ft ++ (et ++ s4)) := by
          conv_lhs => rw [← List.takeWhile_append_dropWhile (p := Char.isDigit) (l := s1)]
          rw [← drop_takeWhile_len, hfts, hets]
        rw [hsgs]
        conv_lhs => rw [hs1]
        simp
      · exact NumG.mk sg sgn (s1.takeWhile Char.isDigit) ft fd et ex hsg
          (by simpa [List.isEmpty_eq_true] using hemp)
          (all_takeWhile Char.isDigit s1) hft het
  · rintro ⟨lit, rest, q, rfl, hn⟩
    cases hn with
    | mk sg sgn ds ft fd et ex hs hne hd hf he =>
      have hA : (sg ++ (ds ++ (ft ++ et))) ++ rest = sg ++ (ds ++ (ft ++ (et ++ rest))) := by
        simp
      rw [hA]
      have hds0 : ∀ c cs, ds ++ (ft ++ (et ++ rest)) = c :: cs → c ≠ '+' ∧ c ≠ '-' := by
        intro c cs heq
        cases ds with
        | nil => exact absurd rfl hne
        | cons d0 dt =>
          injection heq with h1 h2
          subst h1
          rw [List.all_cons, Bool.and_eq_true] at hd
          exact digit_ne_signs d0 hd.1
      rw [scanNumber]
      rw [scanSign_signG sg sgn hs _ hds0]
      simp only
      cases ds with
      | nil => exact absurd rfl hne
      | cons d0 dt =>
        rw [List.all_cons, Bool.and_eq_true] at hd
        have htk : ((d0 :: dt ++ (ft ++ (et ++ rest))).takeWhile Char.isDigit).isEmpty = false := by
          show ((d0 :: (dt ++ (ft ++ (et ++ rest)))).takeWhile Char.isDigit).isEmpty = false
          rw [List.takeWhile]
          simp [hd.1]
        rw [if_neg (by rw [htk]; simp)]
        exact ⟨_, _, rfl⟩

/-! ## Last-write-wins lemmas for the object mapping -/

/-- The value of the last pair with the given key, in document order. -/
def lastWins (l : List (List Char × JsonValue)) (k : List Char) : Option JsonValue :=
  (l.reverse.find? fun p => decide (p.1 = k)).map Prod.snd

theorem lookupHM_hmInsert (m : List (List Char × JsonValue)) (k : List Char)
    (v : JsonValue) (k' : List Char) :
    lookupHM (hmInsert m k v) k' = if k' = k then some v else lookupHM m k' := by
  induction m with
  | nil =>
    by_cases h : k' = k
    · subst h; simp [hmInsert, lookupHM]
    · have h2 : ¬k = k' := fun hx => h hx.symm
      simp [hmInsert, lookupHM, h, h2]
  | cons p t ih =>
    obtain ⟨a, b⟩ := p
    by_cases ha : a = k
    · subst ha
      by_cases h' : k' = a
      · subst h'; simp [hmInsert, lookupHM]
      · have h2 : ¬a = k' := fun hx => h' hx.symm
        simp [hmInsert, lookupHM, h', h2]
    · by_cases h' : a = k'
      · subst h'
        have h2 : ¬a = k := ha
        simp [hmInsert, lookupHM, ha, h2, fun hx => ha (hx : a = k)]
      · simp [hmInsert, lookupHM, ha, h', ih]

theorem keys_hmInsert (m : List (List Char × JsonValue)) (k : List Char)
    (v : JsonValue) :
    (hmInsert m k v).map Prod.fst = m.map Prod.fst ∨
      (hmInsert m k v).map Prod.fst = m.map Prod.fst ++ [k] := by
  induction m with
  | nil => right; simp [hmInsert]
  | cons p t ih =>
    obtain ⟨a, b⟩ := p
    by_cases ha : a = k
    · left; simp [hmInsert, ha]
    · rcases ih with ih | ih
      · left; simp [hmInsert, ha, ih]
      · right; simp [hmInsert, ha, ih]

theorem mem_keys_hmInsert (m : List (List Char × JsonValue)) (k : List Char)
    (v : JsonValue) (x : List Char) (hx : x ∈ (hmInsert m k v).map Prod.fst) :
    x ∈ m.map Prod.fst ∨ x = k := by
  rcases keys_hmInsert m k v with h | h <;> rw [h] at hx
  · exact Or.inl hx
  · rw [List.mem_append] at hx
    rcases hx with hx | hx
    · exact Or.inl hx
    · right; simpa using hx

theorem nodup_keys_hmInsert (m : List (List Char × JsonValue)) (k : List Char)
    (v : JsonValue) (h : (m.map Prod.fst).Nodup) :
    ((hmInsert m k v).map Prod.fst).Nodup := by
  induction m with
  | nil => simp [hmInsert]
  | cons p t ih =>
    obtain ⟨a, b⟩ := p
    rw [List.map_cons, List.nodup_cons] at h
    by_cases ha : a = k
    · subst ha
      have hstep : hmInsert ((a, b) :: t) a v = (a, v) :: t := by simp [hmInsert]
      rw [hstep, List.map_cons, List.nodup_cons]
      exact h
    · have hstep : hmInsert ((a, b) :: t) k v = (a, b) :: hmInsert t k v := by
        simp [hmInsert, ha]
      rw [hstep, List.map_cons, List.nodup_cons]
      constructor
      · intro hmem
        rcases mem_keys_hmInsert t k v a hmem with hm | hm
        · exact h.1 hm
        · exact ha hm
      · exact ih h.2

theorem nodup_keys_foldl (l : List (List Char × JsonValue)) :
    ∀ m : List (List Char × JsonValue), (m.map Prod.fst).Nodup →
    ((l.foldl (fun m kv => hmInsert m kv.1 kv.2) m).map Prod.fst).Nodup := by
  induction l with
  | nil => intro m h; exact h
  | cons p t ih =>
    intro m h
    exact ih (hmInsert m p.1 p.2) (nodup_keys_hmInsert m p.1 p.2 h)

/-- The keys of a collected object mapping are unique. -/
theorem collectHM_keys_nodup (l : List (List Char × JsonValue)) :
    ((collectHM l).map Prod.fst).Nodup :=
  nodup_keys_foldl l [] (by simp)

/-- The collected mapping stores, for each key, the value of its last
occurrence in document order. -/
theorem lookupHM_collectHM (l : List (List Char × JsonValue)) (k : List Char) :
    lookupHM (collectHM l) k = lastWins l k := by
  induction l using List.reverseRecOn with
  | nil => rfl
  | append_singleton l p ih =>
    obtain ⟨a, b⟩ := p
    have hc : collectHM (l ++ [(a, b)]) = hmInsert (collectHM l) a b := by
      simp [collectHM, List.foldl_append]
    rw [hc, lookupHM_hmInsert]
    have hrev : (l ++ [(a, b)]).reverse = (a, b) :: l.reverse := by simp
    by_cases h : k = a
    · subst h
      simp [lastWins, hrev]
    · have h2 : ¬a = k := fun hx => h hx.symm
      rw [if_neg h, ih]
      simp [lastWins, hrev, h2]

/-! ## Failure lemmas for the value dispatcher -/

theorem parse_string_err_head (c : Char) (s : List Char) (h : c ≠ '"') :
    parse_string (c :: s) = .err := by
  refine parse_string.eq_3 (c :: s) ?_ ?_ <;> intro r heq <;>
    injection heq with h1 h2 <;> exact h h1

theorem parse_bool_err_head (c : Char) (s : List Char) (h1 : c ≠ 'f')
    (h2 : c ≠ 't') : parse_bool (c :: s) = .err := by
  unfold parse_bool
  rw [show toL "false" = 'f' :: toL "alse" from rfl,
    show toL "true" = 't' :: toL "rue" from rfl]
  rw [tagP_err_head c 'f' _ _ (fun hx => h1 hx.symm),
    tagP_err_head c 't' _ _ (fun hx => h2 hx.symm)]
  rfl

theorem parse_null_err_head (c : Char) (s : List Char) (h : c ≠ 'n') :
    parse_null (c :: s) = .err := by
  unfold parse_null
  rw [show toL "null" = 'n' :: toL "ull" from rfl]
  rw [tagP_err_head c 'n' _ _ (fun hx => h hx.symm)]
  rfl

theorem parse_number_err_head (c : Char) (s : List Char) (hd : c.isDigit = false)
    (h1 : c ≠ '+') (h2 : c ≠ '-') : parse_number (c :: s) = .err := by
  unfold parse_number
  rw [scanNumber]
  rw [scanSign_other _ (fun c' cs' heq => by
    injection heq with a b; subst a; exact ⟨h1, h2⟩)]
  simp only
  rw [List.takeWhile_cons_of_neg (by simp [hd])]
  rfl

theorem parse_object_err_head (f : Nat) (c : Char) (s : List Char)
    (h : c ≠ '{') : parse_object f (c :: s) = .err := by
  cases f with
  | zero => rfl
  | succ f => rw [parse_object_succ, charP_err '{' c s h]; rfl

theorem parse_array_err_head (f : Nat) (c : Char) (s : List Char)
    (h : c ≠ '[') : parse_array f (c :: s) = .err := by
  cases f with
  | zero => rfl
  | succ f => rw [parse_array_succ, charP_err '[' c s h]; rfl

/-- The value dispatcher fails (recoverably, consuming nothing) when no
alternative can start at the current position. -/
theorem parse_value_err_head (f : Nat) (c : Char) (s : List Char)
    (hw : isWsChar c = false) (hq : c ≠ '"') (hf : c ≠ 'f') (ht : c ≠ 't')
    (hd : c.isDigit = false) (hp : c ≠ '+') (hm : c ≠ '-') (hn : c ≠ 'n')
    (ho : c ≠ '{') (ha : c ≠ '[') : parse_value f (c :: s) = .err := by
  cases f with
  | zero => rfl
  | succ f =>
    rw [parse_value_succ, skipWs_nonws c s hw]
    rw [parse_string_err_head c s hq, parse_bool_err_head c s hf ht,
      parse_null_err_head c s hn, parse_number_err_head c s hd hp hm,
      parse_object_err_head _ c s ho, parse_array_err_head _ c s ha]
    rfl

theorem parse_value_err_rbrack (f : Nat) (k : List Char) :
    parse_value f (']' :: k) = .err :=
  parse_value_err_head f ']' k (by decide) (by decide) (by decide) (by decide)
    (by decide) (by decide) (by decide) (by decide) (by decide) (by decide)

theorem parse_value_err_rbrace (f : Nat) (k : List Char) :
    parse_value f ('}' :: k) = .err :=
  parse_value_err_head f '}' k (by decide) (by decide) (by decide) (by decide)
    (by decide) (by decide) (by decide) (by decide) (by decide) (by decide)

theorem parse_string_err_rbrace (k : List Char) :
    parse_string ('}' :: k) = .err :=
  parse_string_err_head '}' k (by decide)

/-! ## Prelude for the completeness proof -/

/-- What may follow a grammar value inside a document: whitespace or a
closing delimiter or separator. -/
def Follow (k : List Char) : Prop :=
  ∀ c cs, k = c :: cs → (isWsChar c = true ∨ c = ',' ∨ c = ']' ∨ c = '}')

/-- `arrLoop` stops immediately at `k`, returning its accumulator. -/
def StopA (k : List Char) : Prop :=
  ∀ f acc, 1 ≤ f → arrLoopP f k acc = .ok k acc

/-- `objLoop` stops immediately at `k`, returning its accumulator. -/
def StopO (k : List Char) : Prop :=
  ∀ f acc, 1 ≤ f → objLoopP f k acc = .ok k acc

theorem skipWs_ws (w : List Char) (hw : WsG w) : skipWs w = [] := by
  have := skipWs_ws_append w [] hw
  simpa using this

theorem wsChar_facts (c : Char) (h : isWsChar c = true) :
    c.isDigit = false ∧ c ≠ '.' ∧ c ≠ 'e' ∧ c ≠ 'E' := by
  simp only [isWsChar, Bool.or_eq_true, decide_eq_true_eq] at h
  rcases h with ((h | h) | h) | h <;> subst h <;>
    exact ⟨by decide, by decide, by decide, by decide⟩

theorem follow_numFollow (k : List Char) (h : Follow k) : numFollow k := by
  intro c cs heq
  rcases h c cs heq with hw | hc | hc | hc
  · exact wsChar_facts c hw
  · subst hc; exact ⟨by decide, by decide, by decide, by decide⟩
  · subst hc; exact ⟨by decide, by decide, by decide, by decide⟩
  · subst hc; exact ⟨by decide, by decide, by decide, by decide⟩

theorem ws_follow_numFollow (w k : List Char) (hw : WsG w) (hk : Follow k) :
    numFollow (w ++ k) := by
  intro c cs heq
  cases w with
  | nil => exact follow_numFollow k hk c cs heq
  | cons a t =>
    injection heq with h1 h2
    subst h1
    rw [WsG, List.all_cons, Bool.and_eq_true] at hw
    exact wsChar_facts _ hw.1

theorem digit_facts (c : Char) (h : c.isDigit = true) :
    isWsChar c = false ∧ c ≠ '"' ∧ c ≠ 'f' ∧ c ≠ 't' ∧ c ≠ 'n' ∧
      c ≠ '{' ∧ c ≠ '[' := by
  refine ⟨?_, ?_, ?_, ?_, ?_, ?_, ?_⟩
  · by_cases hw : isWsChar c = true
    · have hd := (wsChar_facts c hw).1
      rw [h] at hd
      exact absurd hd (by simp)
    · simpa using hw
  all_goals intro hx; subst hx; exact absurd h (by decide)

/-- A grammar numeral starts with a sign or a digit. -/
theorem numG_head (t : List Char) (q : Rat) (h : NumG t q) :
    ∃ c cs, t = c :: cs ∧ (c = '+' ∨ c = '-' ∨ c.isDigit = true) := by
  cases h with
  | mk sg sgn ds ft fd et ex hs hne hd hf he =>
    cases hs with
    | none =>
      cases ds with
      | nil => exact absurd rfl hne
      | cons d0 dt =>
        rw [List.all_cons, Bool.and_eq_true] at hd
        exact ⟨d0, _, rfl, Or.inr (Or.inr hd.1)⟩
    | plus => exact ⟨'+', _, rfl, Or.inl rfl⟩
    | minus => exact ⟨'-', _, rfl, Or.inr (Or.inl rfl)⟩

theorem parse_value_skipWs (f : Nat) (s : List Char) :
    parse_value f (skipWs s) = parse_value f s := by
  cases f with
  | zero => rfl
  | succ f => rw [parse_value_succ, parse_value_succ, skipWs_idem]

theorem objPairP_ws (f : Nat) (w s : List Char) (hw : WsG w) :
    objPairP f (w ++ s) = objPairP f s := by
  cases f with
  | zero => rfl
  | succ f => rw [objPairP_succ, objPairP_succ, skipWs_ws_append w s hw]

theorem StopA_rbrack (k : List Char) : StopA (']' :: k) := by
  intro f acc hf
  obtain ⟨g, rfl⟩ : ∃ g, f = g + 1 := ⟨f - 1, by omega⟩
  rw [arrLoopP_succ, charP_err ',' ']' k (by decide)]
  rfl

theorem StopO_rbrace (k : List Char) : StopO ('}' :: k) := by
  intro f acc hf
  obtain ⟨g, rfl⟩ : ∃ g, f = g + 1 := ⟨f - 1, by omega⟩
  rw [objLoopP_succ, tagP_err_head '}' ',' [] k (by decide)]
  rfl

theorem strG_cons (raw d : List Char) (h : StrG gramAmended raw d) :
    ∃ rest, raw = '"' :: rest := by
  cases h with
  | mk body dd hch => exact ⟨body ++ ['"'], by simp⟩

theorem strG_len (raw d : List Char) (h : StrG gramAmended raw d) :
    2 ≤ raw.length := by
  cases h with
  | mk body dd hch => simp

theorem Follow_cons (c : Char) (k : List Char)
    (h : isWsChar c = true ∨ c = ',' ∨ c = ']' ∨ c = '}') : Follow (c :: k) := by
  intro c' cs heq
  injection heq with a b
  subst a
  exact h

theorem Follow_ws_append (w k : List Char) (hw : WsG w) (hk : Follow k) :
    Follow (w ++ k) := by
  intro c cs heq
  cases w with
  | nil => exact hk c cs heq
  | cons a t =>
    injection heq with a b
    rw [WsG, List.all_cons, Bool.and_eq_true] at hw
    left
    rw [← a]
    exact hw.1

theorem porelse_ok {a : Type} (r : List Char) (v : a) (q : PResult a) :
    porelse (.ok r v) q = .ok r v := rfl

theorem porelse_err {a : Type} (q : PResult a) : porelse .err q = q := rfl

theorem parse_bool_true (Y : List Char) :
    parse_bool (toL "true" ++ Y) = .ok Y true := by
  unfold parse_bool
  have h1 : tagP (toL "false") (toL "true" ++ Y) = .err := by
    rw [show toL "false" = 'f' :: toL "alse" from rfl,
      show toL "true" ++ Y = 't' :: (toL "rue" ++ Y) from rfl]
    exact tagP_err_head 't' 'f' _ _ (by decide)
  rw [h1, tagP_exact (toL "true") Y]
  rfl

theorem parse_bool_false (Y : List Char) :
    parse_bool (toL "false" ++ Y) = .ok Y false := by
  unfold parse_bool
  rw [tagP_exact (toL "false") Y]
  rfl

theorem parse_null_exact (Y : List Char) :
    parse_null (toL "null" ++ Y) = .ok Y JsonValue.Null := by
  unfold parse_null
  rw [tagP_exact (toL "null") Y]
  rfl

theorem objG_cons (raw : List Char) (ps : List (List Char × JsonValue))
    (h : ObjG gramAmended raw ps) : ∃ rest, raw = '{' :: rest := by
  cases h with
  | nil w hw hcode => exact ⟨w ++ ['}'], by simp⟩
  | cons w body w2 ps hw hw2 hps => exact ⟨w ++ (body ++ (w2 ++ ['}'])), by simp⟩

theorem arrG_cons (raw : List Char) (vs : List JsonValue)
    (h : ArrG gramAmended raw vs) : ∃ rest, raw = '[' :: rest := by
  cases h with
  | nil => exact ⟨[']'], rfl⟩
  | cons body vs hel => exact ⟨body ++ [']'], by simp⟩

/-- The conjunction of all completeness statements for derivations whose text
has exactly the given length (proved by strong induction on it). -/
def BundleAt (n : Nat) : Prop :=
  (∀ t p, PairG gramAmended t p → t.length = n → ∀ k f, Follow k →
    t.length + 2 ≤ f → objPairP f (t ++ k) = .ok (skipWs k) p) ∧
  (∀ t vs, ArrG gramAmended t vs → t.length = n → ∀ k f, t.length + 2 ≤ f →
    parse_array f (t ++ k) = .ok k vs) ∧
  (∀ t ps, ObjG gramAmended t ps → t.length = n → ∀ k f, t.length + 2 ≤ f →
    parse_object f (t ++ k) = .ok k (collectHM ps)) ∧
  (∀ t v, ValG gramAmended t v → t.length = n → ∀ k f, Follow k →
    t.length + 2 ≤ f → parse_value f (t ++ k) = .ok (skipWs k) v) ∧
  (∀ t vs, ElemsG gramAmended t vs → t.length = n → ∀ k f, StopA (skipWs k) →
    Follow k → t.length + 3 ≤ f → arrElemsP f (t ++ k) = .ok (skipWs k) vs) ∧
  (∀ t vs, ElemsG gramAmended t vs → t.length = n → ∀ k f acc, StopA (skipWs k) →
    Follow k → t.length + 3 ≤ f →
    arrLoopP f (',' :: (t ++ k)) acc = .ok (skipWs k) (acc ++ vs)) ∧
  (∀ t ps, PairsG gramAmended t ps → t.length = n → ∀ w k f, WsG w →
    StopO (skipWs k) → Follow k → w.length + t.length + 3 ≤ f →
    objPairsP f (w ++ (t ++ k)) = .ok (skipWs k) ps) ∧
  (∀ t ps, PairsG gramAmended t ps → t.length = n → ∀ k f acc, StopO (skipWs k) →
    Follow k → t.length + 3 ≤ f →
    objLoopP f (',' :: (t ++ k)) acc = .ok (skipWs k) (acc ++ ps))

theorem bundle_all : ∀ n, BundleAt n := by
  intro n
  induction n using Nat.strong_induction_on with
  | _ n IH =>
  have ihVal : ∀ t v, ValG gramAmended t v → t.length < n → ∀ k f, Follow k →
      t.length + 2 ≤ f → parse_value f (t ++ k) = .ok (skipWs k) v :=
    fun t v hv hlt k f hk hf => (IH _ hlt).2.2.2.1 t v hv rfl k f hk hf
  have ihElems : ∀ t vs, ElemsG gramAmended t vs → t.length < n → ∀ k f,
      StopA (skipWs k) → Follow k → t.length + 3 ≤ f →
      arrElemsP f (t ++ k) = .ok (skipWs k) vs :=
    fun t vs hv hlt k f h1 h2 h3 => (IH _ hlt).2.2.2.2.1 t vs hv rfl k f h1 h2 h3
  have ihElemsL : ∀ t vs, ElemsG gramAmended t vs → t.length < n → ∀ k f acc,
      StopA (skipWs k) → Follow k → t.length + 3 ≤ f →
      arrLoopP f (',' :: (t ++ k)) acc = .ok (skipWs k) (acc ++ vs) :=
    fun t vs hv hlt k f acc h1 h2 h3 =>
      (IH _ hlt).2.2.2.2.2.1 t vs hv rfl k f acc h1 h2 h3
  have ihPairs : ∀ t ps, PairsG gramAmended t ps → t.length < n → ∀ w k f,
      WsG w → StopO (skipWs k) → Follow k → w.length + t.length + 3 ≤ f →
      objPairsP f (w ++ (t ++ k)) = .ok (skipWs k) ps :=
    fun t ps hv hlt w k f h0 h1 h2 h3 =>
      (IH _ hlt).2.2.2.2.2.2.1 t ps hv rfl w k f h0 h1 h2 h3
  have ihPairsL : ∀ t ps, PairsG gramAmended t ps → t.length < n → ∀ k f acc,
      StopO (skipWs k) → Follow k → t.length + 3 ≤ f →
      objLoopP f (',' :: (t ++ k)) acc = .ok (skipWs k) (acc ++ ps) :=
    fun t ps hv hlt k f acc h1 h2 h3 =>
      (IH _ hlt).2.2.2.2.2.2.2 t ps hv rfl k f acc h1 h2 h3
  -- 1. pairs
  have hPair : ∀ t p, PairG gramAmended t p → t.length = n → ∀ k f, Follow k →
      t.length + 2 ≤ f → objPairP f (t ++ k) = .ok (skipWs k) p := by
    intro t p hp hlen k f hk hf
    cases hp with
    | mk w1 kraw w2 vt kk v hw1 hkG hw2 hv =>
      obtain ⟨g, rfl⟩ : ∃ g, f = g + 1 := ⟨f - 1, by omega⟩
      rw [objPairP_succ]
      have hA : (w1 ++ (kraw ++ (w2 ++ ':' :: vt))) ++ k
          = w1 ++ (kraw ++ (w2 ++ (':' :: (vt ++ k)))) := by simp
      rw [hA]
      rw [skipWs_ws_append w1 _ hw1]
      obtain ⟨rest, hraw⟩ := strG_cons kraw kk hkG
      have h2 : skipWs (kraw ++ (w2 ++ (':' :: (vt ++ k))))
          = kraw ++ (w2 ++ (':' :: (vt ++ k))) := by
        rw [hraw, List.cons_append]
        exact skipWs_nonws _ _ (by decide)
      rw [h2]
      rw [parse_string_strG kraw kk hkG (w2 ++ (':' :: (vt ++ k)))]
      show (charP ':' (skipWs (w2 ++ (':' :: (vt ++ k))))).bind _ = _
      rw [skipWs_ws_append w2 _ hw2, skipWs_nonws _ _ (by decide)]
      rw [charP_ok ':' (vt ++ k)]
      show (parse_value g (vt ++ k)).bind _ = _
      have hlv : vt.length < n := by
        have := strG_len kraw kk hkG
        simp at hlen
        omega
      have hfv : vt.length + 2 ≤ g := by
        have := strG_len kraw kk hkG
        simp at hlen hf
        omega
      rw [ihVal vt v hv hlv k g hk hfv]
      rfl
  -- 2. arrays
  have hArr : ∀ t vs, ArrG gramAmended t vs → t.length = n → ∀ k f,
      t.length + 2 ≤ f → parse_array f (t ++ k) = .ok k vs := by
    intro t vs ha hlen k f hf
    cases ha with
    | nil =>
      obtain ⟨g, rfl⟩ : ∃ g, f = g + 1 := ⟨f - 1, by omega⟩
      rw [show (['[', ']'] : List Char) ++ k = '[' :: (']' :: k) from rfl]
      rw [parse_array_succ, charP_ok '[' (']' :: k)]
      simp only [PResult.bind]
      rw [arrElemsP_succ, skipWs_nonws ']' k (by decide), parse_value_err_rbrack g k]
      rfl
    | cons body vs hel =>
      obtain ⟨g, rfl⟩ : ∃ g, f = g + 1 := ⟨f - 1, by omega⟩
      have hA : ('[' :: body ++ [']']) ++ k = '[' :: (body ++ (']' :: k)) := by simp
      rw [hA, parse_array_succ, charP_ok '[' _]
      simp only [PResult.bind]
      have hskip : skipWs (']' :: k) = ']' :: k := skipWs_nonws _ _ (by decide)
      have helems := ihElems body vs hel (by simp at hlen; omega) (']' :: k) (g + 1)
        (by rw [hskip]; exact StopA_rbrack k)
        (Follow_cons ']' k (by decide))
        (by simp at hlen hf; omega)
      rw [hskip] at helems
      rw [helems]
      rfl
  -- 3. objects
  have hObj : ∀ t ps, ObjG gramAmended t ps → t.length = n → ∀ k f,
      t.length + 2 ≤ f → parse_object f (t ++ k) = .ok k (collectHM ps) := by
    intro t ps ho hlen k f hf
    cases ho with
    | nil w hw hcode =>
      have hwnil : w = [] := by
        rcases hcode with hc | hc
        · exact absurd hc (by simp [gramAmended])
        · exact hc
      subst hwnil
      obtain ⟨g, rfl⟩ : ∃ g, f = g + 1 := ⟨f - 1, by omega⟩
      rw [show ('{' :: ([] : List Char) ++ ['}']) ++ k = '{' :: ('}' :: k) from rfl]
      rw [parse_object_succ, charP_ok '{' ('}' :: k)]
      simp only [PResult.bind]
      rw [objPairsP_succ, objPairP_succ, skipWs_nonws '}' k (by decide),
        parse_string_err_rbrace k]
      rfl
    | cons w body w2 ps hw hw2 hps =>
      obtain ⟨g, rfl⟩ : ∃ g, f = g + 1 := ⟨f - 1, by omega⟩
      have hA : ('{' :: w ++ (body ++ (w2 ++ ['}']))) ++ k
          = '{' :: (w ++ (body ++ (w2 ++ ('}' :: k)))) := by simp
      rw [hA, parse_object_succ, charP_ok '{' _]
      simp only [PResult.bind]
      have hskip : skipWs (w2 ++ ('}' :: k)) = '}' :: k := by
        rw [skipWs_ws_append w2 _ hw2]
        exact skipWs_nonws _ _ (by decide)
      have hpairs := ihPairs body ps hps (by simp at hlen; omega) w
        (w2 ++ ('}' :: k)) (g + 1) hw
        (by rw [hskip]; exact StopO_rbrace k)
        (Follow_ws_append w2 _ hw2 (Follow_cons '}' k (by decide)))
        (by simp at hlen hf; omega)
      rw [hskip] at hpairs
      rw [hpairs]
      rfl
  have hArrLe : ∀ t vs, ArrG gramAmended t vs → t.length ≤ n → ∀ k f,
      t.length + 2 ≤ f → parse_array f (t ++ k) = .ok k vs := by
    intro t vs h hle k f hf
    rcases Nat.lt_or_ge t.length n with hlt | hge
    · exact (IH _ hlt).2.1 t vs h rfl k f hf
    · exact hArr t vs h (by omega) k f hf
  have hObjLe : ∀ t ps, ObjG gramAmended t ps → t.length ≤ n → ∀ k f,
      t.length + 2 ≤ f → parse_object f (t ++ k) = .ok k (collectHM ps) := by
    intro t ps h hle k f hf
    rcases Nat.lt_or_ge t.length n with hlt | hge
    · exact (IH _ hlt).2.2.1 t ps h rfl k f hf
    · exact hObj t ps h (by omega) k f hf
  -- 4. values
  have hVal : ∀ t v, ValG gramAmended t v → t.length = n → ∀ k f, Follow k →
      t.length + 2 ≤ f → parse_value f (t ++ k) = .ok (skipWs k) v := by
    intro t v hv hlen k f hk hf
    obtain ⟨g, rfl⟩ : ∃ g, f = g + 1 := ⟨f - 1, by omega⟩
    rw [parse_value_succ]
    cases hv with
    | str w1 w2 raw d hw1 hw2 hstr =>
      have hA : (w1 ++ (raw ++ w2)) ++ k = w1 ++ (raw ++ (w2 ++ k)) := by simp
      rw [hA, skipWs_ws_append w1 _ hw1]
      obtain ⟨rest, hraw⟩ := strG_cons raw d hstr
      have h2 : skipWs (raw ++ (w2 ++ k)) = raw ++ (w2 ++ k) := by
        rw [hraw, List.cons_append]
        exact skipWs_nonws _ _ (by decide)
      rw [h2, parse_string_strG raw d hstr (w2 ++ k)]
      show PResult.ok (skipWs (w2 ++ k)) (JsonValue.String d) = _
      rw [skipWs_ws_append w2 k hw2]
    | btrue w1 w2 hw1 hw2 =>
      have hA : (w1 ++ (toL "true" ++ w2)) ++ k = w1 ++ (toL "true" ++ (w2 ++ k)) := by
        simp
      rw [hA, skipWs_ws_append w1 _ hw1]
      have h2 : skipWs (toL "true" ++ (w2 ++ k)) = toL "true" ++ (w2 ++ k) :=
        skipWs_nonws 't' (toL "rue" ++ (w2 ++ k)) (by decide)
      have hs : parse_string (toL "true" ++ (w2 ++ k)) = .err :=
        parse_string_err_head 't' (toL "rue" ++ (w2 ++ k)) (by decide)
      rw [h2, hs, parse_bool_true (w2 ++ k)]
      show PResult.ok (skipWs (w2 ++ k)) (JsonValue.Bool true) = _
      rw [skipWs_ws_append w2 k hw2]
    | bfalse w1 w2 hw1 hw2 =>
      have hA : (w1 ++ (toL "false" ++ w2)) ++ k = w1 ++ (toL "false" ++ (w2 ++ k)) := by
        simp
      rw [hA, skipWs_ws_append w1 _ hw1]
      have h2 : skipWs (toL "false" ++ (w2 ++ k)) = toL "false" ++ (w2 ++ k) :=
        skipWs_nonws 'f' (toL "alse" ++ (w2 ++ k)) (by decide)
      have hs : parse_string (toL "false" ++ (w2 ++ k)) = .err :=
        parse_string_err_head 'f' (toL "alse" ++ (w2 ++ k)) (by decide)
      rw [h2, hs, parse_bool_false (w2 ++ k)]
      show PResult.ok (skipWs (w2 ++ k)) (JsonValue.Bool false) = _
      rw [skipWs_ws_append w2 k hw2]
    | nul w1 w2 hw1 hw2 =>
      have hA : (w1 ++ (toL "null" ++ w2)) ++ k = w1 ++ (toL "null" ++ (w2 ++ k)) := by
        simp
      rw [hA, skipWs_ws_append w1 _ hw1]
      have h2 : skipWs (toL "null" ++ (w2 ++ k)) = toL "null" ++ (w2 ++ k) :=
        skipWs_nonws 'n' (toL "ull" ++ (w2 ++ k)) (by decide)
      have hs : parse_string (toL "null" ++ (w2 ++ k)) = .err :=
        parse_string_err_head 'n' (toL "ull" ++ (w2 ++ k)) (by decide)
      have hb : parse_bool (toL "null" ++ (w2 ++ k)) = .err :=
        parse_bool_err_head 'n' (toL "ull" ++ (w2 ++ k)) (by decide) (by decide)
      have hnum : parse_number (toL "null" ++ (w2 ++ k)) = .err :=
        parse_number_err_head 'n' (toL "ull" ++ (w2 ++ k)) (by decide) (by decide)
          (by decide)
      rw [h2, hs, hb, hnum, parse_null_exact (w2 ++ k)]
      show PResult.ok (skipWs (w2 ++ k)) JsonValue.Null = _
      rw [skipWs_ws_append w2 k hw2]
    | num w1 w2 lit q hw1 hw2 hnum =>
      obtain ⟨c0, cs0, hlit, hc0⟩ := numG_head lit q hnum
      have hc0ws : isWsChar c0 = false := by
        rcases hc0 with h | h | h
        · subst h; decide
        · subst h; decide
        · exact (digit_facts c0 h).1
      have hc0q : c0 ≠ '"' := by
        rcases hc0 with h | h | h
        · subst h; decide
        · subst h; decide
        · exact (digit_facts c0 h).2.1
      have hc0f : c0 ≠ 'f' := by
        rcases hc0 with h | h | h
        · subst h; decide
        · subst h; decide
        · exact (digit_facts c0 h).2.2.1
      have hc0t : c0 ≠ 't' := by
        rcases hc0 with h | h | h
        · subst h; decide
        · subst h; decide
        · exact (digit_facts c0 h).2.2.2.1
      have hA : (w1 ++ (lit ++ w2)) ++ k = w1 ++ (lit ++ (w2 ++ k)) := by simp
      have hX : lit ++ (w2 ++ k) = c0 :: (cs0 ++ (w2 ++ k)) := by rw [hlit]; rfl
      rw [hA, skipWs_ws_append w1 _ hw1]
      have h2 : skipWs (lit ++ (w2 ++ k)) = lit ++ (w2 ++ k) := by
        rw [hX]
        exact skipWs_nonws _ _ hc0ws
      have hs : parse_string (lit ++ (w2 ++ k)) = .err := by
        rw [hX]
        exact parse_string_err_head c0 _ hc0q
      have hb : parse_bool (lit ++ (w2 ++ k)) = .err := by
        rw [hX]
        exact parse_bool_err_head c0 _ hc0f hc0t
      have hn : parse_number (lit ++ (w2 ++ k)) = .ok (w2 ++ k) q := by
        unfold parse_number
        rw [scanNumber_numG lit q hnum (w2 ++ k) (ws_follow_numFollow w2 k hw2 hk)]
      rw [h2, hs, hb, hn]
      show PResult.ok (skipWs (w2 ++ k)) (JsonValue.Number q) = _
      rw [skipWs_ws_append w2 k hw2]
    | obj w1 w2 raw ps hw1 hw2 hog =>
      obtain ⟨rest, hraw⟩ := objG_cons raw ps hog
      have hA : (w1 ++ (raw ++ w2)) ++ k = w1 ++ (raw ++ (w2 ++ k)) := by simp
      have hX : raw ++ (w2 ++ k) = '{' :: (rest ++ (w2 ++ k)) := by rw [hraw]; rfl
      rw [hA, skipWs_ws_append w1 _ hw1]
      have h2 : skipWs (raw ++ (w2 ++ k)) = raw ++ (w2 ++ k) := by
        rw [hX]
        exact skipWs_nonws _ _ (by decide)
      have hs : parse_string (raw ++ (w2 ++ k)) = .err := by
        rw [hX]
        exact parse_string_err_head '{' _ (by decide)
      have hb : parse_bool (raw ++ (w2 ++ k)) = .err := by
        rw [hX]
        exact parse_bool_err_head '{' _ (by decide) (by decide)
      have hn : parse_number (raw ++ (w2 ++ k)) = .err := by
        rw [hX]
        exact parse_number_err_head '{' _ (by decide) (by decide) (by decide)
      have hnl : parse_null (raw ++ (w2 ++ k)) = .err := by
        rw [hX]
        exact parse_null_err_head '{' _ (by decide)
      have hop : parse_object (g + 1) (raw ++ (w2 ++ k)) = .ok (w2 ++ k) (collectHM ps) :=
        hObjLe raw ps hog (by simp at hlen; omega) (w2 ++ k) (g + 1)
          (by simp at hlen hf; omega)
      rw [h2, hs, hb, hn, hnl, hop]
      show PResult.ok (skipWs (w2 ++ k)) (JsonValue.Object (collectHM ps)) = _
      rw [skipWs_ws_append w2 k hw2]
    | arr w1 w2 raw vs hw1 hw2 hag =>
      obtain ⟨rest, hraw⟩ := arrG_cons raw vs hag
      have hA : (w1 ++ (raw ++ w2)) ++ k = w1 ++ (raw ++ (w2 ++ k)) := by simp
      have hX : raw ++ (w2 ++ k) = '[' :: (rest ++ (w2 ++ k)) := by rw [hraw]; rfl
      rw [hA, skipWs_ws_append w1 _ hw1]
      have h2 : skipWs (raw ++ (w2 ++ k)) = raw ++ (w2 ++ k) := by
        rw [hX]
        exact skipWs_nonws _ _ (by decide)
      have hs : parse_string (raw ++ (w2 ++ k)) = .err := by
        rw [hX]
        exact parse_string_err_head '[' _ (by decide)
      have hb : parse_bool (raw ++ (w2 ++ k)) = .err := by
        rw [hX]
        exact parse_bool_err_head '[' _ (by decide) (by decide)
      have hn : parse_number (raw ++ (w2 ++ k)) = .err := by
        rw [hX]
        exact parse_number_err_head '[' _ (by decide) (by decide) (by decide)
      have hnl : parse_null (raw ++ (w2 ++ k)) = .err := by
        rw [hX]
        exact parse_null_err_head '[' _ (by decide)
      have hoe : parse_object (g + 1) (raw ++ (w2 ++ k)) = .err := by
        rw [hX]
        exact parse_object_err_head (g + 1) '[' _ (by decide)
      have hap : parse_array (g + 1) (raw ++ (w2 ++ k)) = .ok (w2 ++ k) vs :=
        hArrLe raw vs hag (by simp at hlen; omega) (w2 ++ k) (g + 1)
          (by simp at hlen hf; omega)
      rw [h2, hs, hb, hn, hnl, hoe, hap]
      show PResult.ok (skipWs (w2 ++ k)) (JsonValue.Array vs) = _
      rw [skipWs_ws_append w2 k hw2]
  have hValLe : ∀ t v, ValG gramAmended t v → t.length ≤ n → ∀ k f, Follow k →
      t.length + 2 ≤ f → parse_value f (t ++ k) = .ok (skipWs k) v := by
    intro t v h hle k f hk hf
    rcases Nat.lt_or_ge t.length n with hlt | hge
    · exact ihVal t v h hlt k f hk hf
    · exact hVal t v h (by omega) k f hk hf
  have hPairLe : ∀ t p, PairG gramAmended t p → t.length ≤ n → ∀ k f, Follow k →
      t.length + 2 ≤ f → objPairP f (t ++ k) = .ok (skipWs k) p := by
    intro t p h hle k f hk hf
    rcases Nat.lt_or_ge t.length n with hlt | hge
    · exact (IH _ hlt).1 t p h rfl k f hk hf
    · exact hPair t p h (by omega) k f hk hf
  -- 5/6. array element lists and their continuation loop
  have hElemsL : ∀ t vs, ElemsG gramAmended t vs → t.length = n → ∀ k f acc,
      StopA (skipWs k) → Follow k → t.length + 3 ≤ f →
      arrLoopP f (',' :: (t ++ k)) acc = .ok (skipWs k) (acc ++ vs) := by
    intro t vs he hlen k f acc hstop hfol hf
    obtain ⟨g, rfl⟩ : ∃ g, f = g + 1 := ⟨f - 1, by omega⟩
    rw [arrLoopP_succ, charP_ok ',' (t ++ k)]
    rw [pcatch_ok]
    cases he with
    | one t v hval =>
      have helem : (parse_value g (skipWs (t ++ k))).bind
          (fun r2 v => .ok (skipWs r2) v) = .ok (skipWs k) v := by
        rw [parse_value_skipWs g (t ++ k),
          hValLe t v hval (by omega) k g hfol (by omega)]
        show PResult.ok (skipWs (skipWs k)) v = _
        rw [skipWs_idem]
      rw [helem, pcatch_ok]
      exact hstop g (acc ++ [v]) (by omega)
    | cons t1 v rest1 vs1 hval hrest =>
      have hB : (t1 ++ ',' :: rest1) ++ k = t1 ++ (',' :: (rest1 ++ k)) := by simp
      rw [hB]
      have hv1 : parse_value g (t1 ++ (',' :: (rest1 ++ k))) =
          .ok (',' :: (rest1 ++ k)) v := by
        have hlt : t1.length ≤ n := by simp at hlen; omega
        have := hValLe t1 v hval hlt (',' :: (rest1 ++ k)) g
          (Follow_cons ',' _ (by decide)) (by simp at hlen hf; omega)
        rwa [skipWs_nonws ',' _ (by decide)] at this
      have helem : (parse_value g (skipWs (t1 ++ (',' :: (rest1 ++ k))))).bind
          (fun r2 v => .ok (skipWs r2) v) = .ok (',' :: (rest1 ++ k)) v := by
        rw [parse_value_skipWs, hv1]
        show PResult.ok (skipWs (',' :: (rest1 ++ k))) v = _
        rw [skipWs_nonws ',' _ (by decide)]
      rw [helem, pcatch_ok]
      rw [ihElemsL rest1 vs1 hrest (by simp at hlen; omega) k g (acc ++ [v])
        hstop hfol (by simp at hlen hf; omega)]
      simp
  have hElems : ∀ t vs, ElemsG gramAmended t vs → t.length = n → ∀ k f,
      StopA (skipWs k) → Follow k → t.length + 3 ≤ f →
      arrElemsP f (t ++ k) = .ok (skipWs k) vs := by
    intro t vs he hlen k f hstop hfol hf
    obtain ⟨g, rfl⟩ : ∃ g, f = g + 1 := ⟨f - 1, by omega⟩
    rw [arrElemsP_succ]
    cases he with
    | one t v hval =>
      have helem : (parse_value g (skipWs (t ++ k))).bind
          (fun r v => .ok (skipWs r) v) = .ok (skipWs k) v := by
        rw [parse_value_skipWs g (t ++ k),
          hValLe t v hval (by omega) k g hfol (by omega)]
        show PResult.ok (skipWs (skipWs k)) v = _
        rw [skipWs_idem]
      rw [helem, pcatch_ok]
      exact hstop (g + 1) [v] (by omega)
    | cons t1 v rest1 vs1 hval hrest =>
      have hB : (t1 ++ ',' :: rest1) ++ k = t1 ++ (',' :: (rest1 ++ k)) := by simp
      rw [hB]
      have hv1 : parse_value g (t1 ++ (',' :: (rest1 ++ k))) =
          .ok (',' :: (rest1 ++ k)) v := by
        have hlt : t1.length ≤ n := by simp at hlen; omega
        have := hValLe t1 v hval hlt (',' :: (rest1 ++ k)) g
          (Follow_cons ',' _ (by decide)) (by simp at hlen hf; omega)
        rwa [skipWs_nonws ',' _ (by decide)] at this
      have helem : (parse_value g (skipWs (t1 ++ (',' :: (rest1 ++ k))))).bind
          (fun r v => .ok (skipWs r) v) = .ok (',' :: (rest1 ++ k)) v := by
        rw [parse_value_skipWs, hv1]
        show PResult.ok (skipWs (',' :: (rest1 ++ k))) v = _
        rw [skipWs_nonws ',' _ (by decide)]
      rw [helem, pcatch_ok]
      rw [ihElemsL rest1 vs1 hrest (by simp at hlen; omega) k (g + 1) [v]
        hstop hfol (by simp at hlen hf; omega)]
      simp
  -- 7/8. object pair lists and their continuation loop
  have hPairsL : ∀ t ps, PairsG gramAmended t ps → t.length = n → ∀ k f acc,
      StopO (skipWs k) → Follow k → t.length + 3 ≤ f →
      objLoopP f (',' :: (t ++ k)) acc = .ok (skipWs k) (acc ++ ps) := by
    intro t ps hp hlen k f acc hstop hfol hf
    obtain ⟨g, rfl⟩ : ∃ g, f = g + 1 := ⟨f - 1, by omega⟩
    have hcm : tagP [','] (',' :: (t ++ k)) = .ok (t ++ k) [','] :=
      tagP_exact [','] (t ++ k)
    rw [objLoopP_succ, hcm, pcatch_ok]
    cases hp with
    | one t p hpair =>
      rw [hPairLe t p hpair (by omega) k (g + 1) hfol (by omega), pcatch_ok]
      exact hstop g (acc ++ [p]) (by omega)
    | cons t1 p rest1 ps1 hpair hrest =>
      have hB : (t1 ++ ',' :: rest1) ++ k = t1 ++ (',' :: (rest1 ++ k)) := by simp
      rw [hB]
      have hp1 : objPairP (g + 1) (t1 ++ (',' :: (rest1 ++ k))) =
          .ok (',' :: (rest1 ++ k)) p := by
        have hlt : t1.length ≤ n := by simp at hlen; omega
        have := hPairLe t1 p hpair hlt (',' :: (rest1 ++ k)) (g + 1)
          (Follow_cons ',' _ (by decide)) (by simp at hlen hf; omega)
        rwa [skipWs_nonws ',' _ (by decide)] at this
      rw [hp1, pcatch_ok]
      rw [ihPairsL rest1 ps1 hrest (by simp at hlen; omega) k g (acc ++ [p])
        hstop hfol (by simp at hlen hf; omega)]
      simp
  have hPairs : ∀ t ps, PairsG gramAmended t ps → t.length = n → ∀ w k f,
      WsG w → StopO (skipWs k) → Follow k → w.length + t.length + 3 ≤ f →
      objPairsP f (w ++ (t ++ k)) = .ok (skipWs k) ps := by
    intro t ps hp hlen w k f hw hstop hfol hf
    obtain ⟨g, rfl⟩ : ∃ g, f = g + 1 := ⟨f - 1, by omega⟩
    rw [objPairsP_succ]
    cases hp with
    | one t p hpair =>
      have hp1 : objPairP (g + 1) (w ++ (t ++ k)) = .ok (skipWs k) p := by
        rw [objPairP_ws (g + 1) w _ hw]
        exact hPairLe t p hpair (by omega) k (g + 1) hfol (by omega)
      rw [hp1, pcatch_ok]
      exact hstop (g + 1) [p] (by omega)
    | cons t1 p rest1 ps1 hpair hrest =>
      have hB : (t1 ++ ',' :: rest1) ++ k = t1 ++ (',' :: (rest1 ++ k)) := by simp
      rw [hB]
      have hp1 : objPairP (g + 1) (w ++ (t1 ++ (',' :: (rest1 ++ k)))) =
          .ok (',' :: (rest1 ++ k)) p := by
        rw [objPairP_ws (g + 1) w _ hw]
        have hlt : t1.length ≤ n := by simp at hlen; omega
        have := hPairLe t1 p hpair hlt (',' :: (rest1 ++ k)) (g + 1)
          (Follow_cons ',' _ (by decide)) (by simp at hlen hf; omega)
        rwa [skipWs_nonws ',' _ (by decide)] at this
      rw [hp1, pcatch_ok]
      rw [ihPairsL rest1 ps1 hrest (by simp at hlen; omega) k (g + 1) [p]
        hstop hfol (by simp at hlen hf; omega)]
      simp
  exact ⟨hPair, hArr, hObj, hVal, hElems, hElemsL, hPairs, hPairsL⟩

/-! ## Document-level completeness -/

theorem parse_root_docG (s : List Char) (v : JsonValue)
    (h : DocG gramAmended s v) (f : Nat) (hf : s.length + 2 ≤ f) :
    parse_root f s = .ok [] v := by
  cases h with
  | obj w1 w2 t ps hw1 hw2 hog =>
    obtain ⟨rest, hraw⟩ := objG_cons t ps hog
    unfold parse_root
    have hA : w1 ++ (t ++ w2) = w1 ++ (t ++ w2) := rfl
    rw [skipWs_ws_append w1 _ hw1]
    have h2 : skipWs (t ++ w2) = t ++ w2 := by
      rw [hraw, List.cons_append]
      exact skipWs_nonws _ _ (by decide)
    rw [h2]
    show pcatch
        (porelse ((parse_object f (t ++ w2)).pmap JsonValue.Object)
          ((parse_array f (t ++ w2)).pmap JsonValue.Array))
        (fun r v => .ok (skipWs r) v) .err = _
    have hop : parse_object f (t ++ w2) = .ok w2 (collectHM ps) :=
      (bundle_all t.length).2.2.1 t ps hog rfl w2 f (by simp at hf ⊢; omega)
    rw [hop]
    show PResult.ok (skipWs w2) (JsonValue.Object (collectHM ps)) = _
    rw [skipWs_ws w2 hw2]
  | arr w1 w2 t vs hw1 hw2 hag =>
    obtain ⟨rest, hraw⟩ := arrG_cons t vs hag
    unfold parse_root
    rw [skipWs_ws_append w1 _ hw1]
    have h2 : skipWs (t ++ w2) = t ++ w2 := by
      rw [hraw, List.cons_append]
      exact skipWs_nonws _ _ (by decide)
    rw [h2]
    show pcatch
        (porelse ((parse_object f (t ++ w2)).pmap JsonValue.Object)
          ((parse_array f (t ++ w2)).pmap JsonValue.Array))
        (fun r v => .ok (skipWs r) v) .err = _
    have hoe : parse_object f (t ++ w2) = .err := by
      rw [hraw, List.cons_append]
      exact parse_object_err_head f '[' _ (by decide)
    have hap : parse_array f (t ++ w2) = .ok w2 vs :=
      (bundle_all t.length).2.1 t vs hag rfl w2 f (by simp at hf ⊢; omega)
    rw [hoe, hap]
    show PResult.ok (skipWs w2) (JsonValue.Array vs) = _
    rw [skipWs_ws w2 hw2]

/-- Completeness of the engine for the amended grammar: every derivable
document parses to its denotation. -/
theorem parse_docG (s : List Char) (v : JsonValue)
    (h : DocG gramAmended s v) : parse s = .ok v := by
  unfold parse
  rw [parse_root_docG s v h (s.length + 2) (le_refl _)]
  rfl

/-! ## Claims -/

/-- C1 (amended): for every input derivable by the §6 grammar — restricted to
empty objects without interior whitespace, `\u` escapes that do not encode
UTF-16 surrogates, and strings without a raw U+007F — `parse` returns `Ok`
with the tree mirroring the document: array elements in order, object pairs
reduced to a last-wins key-to-value mapping, numbers decoded (exactly, as
rationals), strings escape-decoded. -/
theorem claim_C1 : ∀ s v, DocG gramAmended s v → parse s = .ok v :=
  parse_docG

/-- C1 counterexample: `{ }` is derivable by the literal §6 grammar
(`object := "{" ws (pair ("," pair)*)? ws "}"` allows interior whitespace in
an empty object), yet `parse` rejects it with a syntax error, because the
code's `parse_object` has no whitespace handling between `{` and `}` when the
pair list is empty. -/
theorem claim_C1_counterexample :
    DocG gramSpec (toL "{ }") (.Object []) ∧ parse (toL "{ }") = .syntaxErr := by
  constructor
  · have hobj : ObjG gramSpec ('{' :: [' '] ++ ['}']) [] :=
      ObjG.nil [' '] rfl (Or.inl rfl)
    exact DocG.obj [] [] ('{' :: [' '] ++ ['}']) [] rfl rfl hobj
  · rfl

/-- C1 witness: the derivable document `[]` parses to the empty array. -/
theorem claim_C1_witness : parse (toL "[]") = .ok (.Array []) :=
  claim_C1 (toL "[]") (.Array [])
    (DocG.arr [] [] ['[', ']'] [] rfl rfl ArrG.nil)

/-- C6: `parse` is not total — on a document containing the escape `\uD800`
(a UTF-16 surrogate) the second `unwrap` in `hex_char` panics, and on an
escape `\uu123` (the accepted characters wrongly include `'u'`) the first
`unwrap` panics; the process aborts instead of returning a `Result`. -/
theorem claim_C6 :
    parse (toL "[\"\\uD800\"]") = .panicked ∧
      hex_char (toL "uu123") = .panic :=
  ⟨rfl, rfl⟩

/-- C7: when the root value parses but input remains, `parse` returns the
distinct fixed trailing-data error (`Err("错误")`), which is neither the
context-trace syntax error nor the generic internal-failure message;
in particular `{} x` does. -/
theorem claim_C7 :
    (∀ s r v, parse_root (s.length + 2) s = .ok r v → r ≠ [] →
      parse s = .trailingData) ∧
    parse (toL "{} x") = .trailingData ∧
    ParseResult.trailingData ≠ ParseResult.syntaxErr ∧
    ParseResult.trailingData ≠ ParseResult.fatal := by
  refine ⟨?_, rfl, fun h => ParseResult.noConfusion h,
    fun h => ParseResult.noConfusion h⟩
  intro s r v h hr
  unfold parse
  rw [h]
  have hl : r.length > 0 := by
    cases r with
    | nil => exact absurd rfl hr
    | cons a t => simp
  simp [hl]

/-- C7 witness at `{} x`. -/
theorem claim_C7_witness : parse (toL "{} x") = .trailingData :=
  claim_C7.1 (toL "{} x") (toL "x") (.Object []) rfl (by simp [toL])

theorem porelse_fail {a : Type} (q : PResult a) : porelse .fail q = .fail := rfl

theorem pcatch_fail {a b : Type} (qok : List Char → a → PResult b)
    (qerr : PResult b) : pcatch .fail qok qerr = .fail := rfl

theorem pcatch_panic {a b : Type} (qok : List Char → a → PResult b)
    (qerr : PResult b) : pcatch .panic qok qerr = .panic := rfl

/-- `parse_root` with its `let` expanded (definitional). -/
theorem parse_root_eq (f : Nat) (s : List Char) :
    parse_root f s =
      pcatch
        (porelse ((parse_object f (skipWs s)).pmap JsonValue.Object)
          ((parse_array f (skipWs s)).pmap JsonValue.Array))
        (fun r v => .ok (skipWs r) v) .err := rfl

/-- A successful `parse_root` always produces an `Object` or an `Array`
(its `alt` tries only those two parsers). -/
theorem parse_root_ok_shape (f : Nat) (s r : List Char) (v : JsonValue)
    (h : parse_root f s = .ok r v) :
    (∃ m, v = .Object m) ∨ (∃ l, v = .Array l) := by
  rw [parse_root_eq] at h
  cases ho : parse_object f (skipWs s) with
  | ok r1 m =>
    rw [ho] at h
    simp only [PResult.pmap] at h
    rw [porelse_ok, pcatch_ok] at h
    injection h with h1 h2
    exact Or.inl ⟨m, h2.symm⟩
  | err =>
    rw [ho] at h
    simp only [PResult.pmap] at h
    rw [porelse_err] at h
    cases ha : parse_array f (skipWs s) with
    | ok r1 l =>
      rw [ha] at h
      simp only [PResult.pmap] at h
      rw [pcatch_ok] at h
      injection h with h1 h2
      exact Or.inr ⟨l, h2.symm⟩
    | err =>
      rw [ha] at h
      simp only [PResult.pmap] at h
      rw [pcatch_err] at h
      exact PResult.noConfusion h
    | fail =>
      rw [ha] at h
      simp only [PResult.pmap] at h
      rw [pcatch_fail] at h
      exact PResult.noConfusion h
    | panic =>
      rw [ha] at h
      simp only [PResult.pmap] at h
      rw [pcatch_panic] at h
      exact PResult.noConfusion h
  | fail =>
    rw [ho] at h
    simp only [PResult.pmap] at h
    rw [porelse_fail, pcatch_fail] at h
    exact PResult.noConfusion h
  | panic =>
    rw [ho] at h
    simp only [PResult.pmap] at h
    exact PResult.noConfusion h

/-- A bare scalar token: a quoted string, `true`, `false`, `null`, or a
numeral of the §6 grammar. -/
def ScalarTok (t : List Char) : Prop :=
  (∃ d, StrG gramSpec t d) ∨ t = toL "true" ∨ t = toL "false" ∨
    t = toL "null" ∨ ∃ q, NumG t q

/-- A scalar token starts with a non-whitespace character other than the two
container openers. -/
theorem scalarTok_head (t : List Char) (h : ScalarTok t) :
    ∃ c cs, t = c :: cs ∧ isWsChar c = false ∧ c ≠ '{' ∧ c ≠ '[' := by
  rcases h with ⟨d, hs⟩ | h | h | h | ⟨q, hn⟩
  · cases hs with
    | mk body dd hch =>
      exact ⟨'"', body ++ ['"'], rfl, by decide, by decide, by decide⟩
  · subst h; exact ⟨'t', _, rfl, by decide, by decide, by decide⟩
  · subst h; exact ⟨'f', _, rfl, by decide, by decide, by decide⟩
  · subst h; exact ⟨'n', _, rfl, by decide, by decide, by decide⟩
  · obtain ⟨c, cs, rfl, hc⟩ := numG_head t q hn
    refine ⟨c, cs, rfl, ?_, ?_, ?_⟩
    · rcases hc with rfl | rfl | hd
      · decide
      · decide
      · exact (digit_facts c hd).1
    · rcases hc with rfl | rfl | hd
      · decide
      · decide
      · exact (digit_facts c hd).2.2.2.2.2.1
    · rcases hc with rfl | rfl | hd
      · decide
      · decide
      · exact (digit_facts c hd).2.2.2.2.2.2

/-- C2: a successful `parse` always returns an `Object` or `Array` root (the
root `alt` tries only those two), and a document whose content modulo
surrounding whitespace is a bare scalar — a quoted string, `true`, `false`,
`null`, or a numeral — is rejected with a syntax error. -/
theorem claim_C2 :
    (∀ s v, parse s = .ok v → (∃ m, v = .Object m) ∨ (∃ l, v = .Array l)) ∧
    (∀ w1 t w2, WsG w1 → WsG w2 → ScalarTok t →
      parse (w1 ++ (t ++ w2)) = .syntaxErr) := by
  constructor
  · intro s v h
    cases hr : parse_root (s.length + 2) s with
    | ok r w =>
      have hps : parse s = if r.length > 0 then .trailingData else .ok w := by
        unfold parse; rw [hr]
      rw [hps] at h
      by_cases hl : r.length > 0
      · rw [if_pos hl] at h
        exact ParseResult.noConfusion h
      · rw [if_neg hl] at h
        injection h with h2
        subst h2
        exact parse_root_ok_shape _ _ _ _ hr
    | err =>
      have hps : parse s = .syntaxErr := by unfold parse; rw [hr]
      rw [hps] at h
      exact ParseResult.noConfusion h
    | fail =>
      have hps : parse s = .fatal := by unfold parse; rw [hr]
      rw [hps] at h
      exact ParseResult.noConfusion h
    | panic =>
      have hps : parse s = .panicked := by unfold parse; rw [hr]
      rw [hps] at h
      exact ParseResult.noConfusion h
  · intro w1 t w2 hw1 hw2 hsc
    obtain ⟨c0, cs0, htt, hws, hbrace, hbrack⟩ := scalarTok_head t hsc
    subst htt
    have hroot : ∀ g : Nat, parse_root g (w1 ++ (c0 :: cs0 ++ w2)) = .err := by
      intro g
      rw [parse_root_eq]
      rw [skipWs_ws_append w1 _ hw1]
      rw [show (c0 :: cs0) ++ w2 = c0 :: (cs0 ++ w2) from rfl]
      rw [skipWs_nonws c0 _ hws]
      rw [parse_object_err_head g c0 _ hbrace, parse_array_err_head g c0 _ hbrack]
      rfl
    unfold parse
    rw [hroot]

/-- C2 witness: `" 42 "` (a bare numeral surrounded by whitespace) is a
syntax error, and the successfully parsed root of `{}` is an `Object`. -/
theorem claim_C2_witness :
    parse (toL " 42 ") = .syntaxErr ∧
      ((∃ m, JsonValue.Object ([] : List (List Char × JsonValue)) = .Object m) ∨
        (∃ l, JsonValue.Object ([] : List (List Char × JsonValue)) = .Array l)) := by
  constructor
  · exact claim_C2.2 [' '] (toL "42") [' '] rfl rfl
      (Or.inr (Or.inr (Or.inr (Or.inr ⟨decodeParts 1 (toL "42") [] 0,
        NumG.mk [] 1 (toL "42") [] [] [] 0 SignG.none (by decide) (by decide)
          FracG.none ExpG.none⟩))))
  · exact claim_C2.1 (toL "{}") (.Object []) rfl

theorem bind_fail {a b : Type} (f : List Char → a → PResult b) :
    (PResult.fail : PResult a).bind f = .fail := rfl

theorem bind_panic {a b : Type} (f : List Char → a → PResult b) :
    (PResult.panic : PResult a).bind f = .panic := rfl

/-- Every mapping a successful `parse_object` returns is the `collectHM`
image of some pair list (the `map(..., collect)` step). -/
theorem parse_object_ok_collect (f : Nat) (s r : List Char)
    (m : List (List Char × JsonValue)) (h : parse_object f s = .ok r m) :
    ∃ ps, m = collectHM ps := by
  cases f with
  | zero => rw [parse_object_zero] at h; exact PResult.noConfusion h
  | succ f =>
    rw [parse_object_succ] at h
    cases h1 : charP '{' s with
    | ok r1 u =>
      rw [h1, bind_ok] at h
      cases h2 : objPairsP (f + 1) r1 with
      | ok r2 ps =>
        rw [h2, bind_ok] at h
        cases h3 : charP '}' r2 with
        | ok r3 u2 =>
          rw [h3, bind_ok] at h
          injection h with ha hb
          exact ⟨ps, hb.symm⟩
        | err => rw [h3, bind_err] at h; exact PResult.noConfusion h
        | fail => rw [h3, bind_fail] at h; exact PResult.noConfusion h
        | panic => rw [h3, bind_panic] at h; exact PResult.noConfusion h
      | err => rw [h2, bind_err] at h; exact PResult.noConfusion h
      | fail => rw [h2, bind_fail] at h; exact PResult.noConfusion h
      | panic => rw [h2, bind_panic] at h; exact PResult.noConfusion h
    | err => rw [h1, bind_err] at h; exact PResult.noConfusion h
    | fail => rw [h1, bind_fail] at h; exact PResult.noConfusion h
    | panic => rw [h1, bind_panic] at h; exact PResult.noConfusion h

theorem decodeParts_two : decodeParts 1 ['2'] [] 0 = (2 : Rat) := by
  have h : digitsToNat (['2'] ++ []) = 2 := by decide
  simp only [decodeParts]
  rw [h]
  norm_num

/-- C3: every successfully parsed object is the fold (`collectHM`) of its
source pairs into a mapping; that mapping associates each key with the value
of its *last* occurrence in document order (`lastWins`) and its keys are
pairwise distinct; in particular `{"a":1,"a":2}` parses to the object where
`"a"` maps to the number `2`. -/
theorem claim_C3 :
    (∀ f s r m, parse_object f s = .ok r m → ∃ ps, m = collectHM ps) ∧
    (∀ ps k, lookupHM (collectHM ps) k = lastWins ps k) ∧
    (∀ ps, ((collectHM ps).map Prod.fst).Nodup) ∧
    parse (toL "\x7b\"a\":1,\"a\":2\x7d") =
      .ok (.Object [(toL "a", .Number 2)]) := by
  refine ⟨parse_object_ok_collect, lookupHM_collectHM, collectHM_keys_nodup, ?_⟩
  rw [show (2 : Rat) = decodeParts 1 ['2'] [] 0 from decodeParts_two.symm]
  rfl

/-- C3 witness: the empty object's mapping is a `collectHM` image, and the
last-wins law applied at a one-pair list. -/
theorem claim_C3_witness :
    (∃ ps, ([] : List (List Char × JsonValue)) = collectHM ps) ∧
      lookupHM (collectHM [(toL "a", JsonValue.Null)]) (toL "a") =
        lastWins [(toL "a", JsonValue.Null)] (toL "a") :=
  ⟨claim_C3.1 2 (toL "{}") [] [] rfl, claim_C3.2.1 [(toL "a", .Null)] (toL "a")⟩

/-- C4 (amended): for every well-formed quoted string — restricted to `\u`
escapes that do not encode UTF-16 surrogates (those panic, see the
counterexample) — the string parser returns the concatenation of its chunks
with each escape decoded per the §4.3 table (`EscG` is that table verbatim);
in particular `"abc\n \u1234"` decodes to `abc` + newline + space + U+1234. -/
theorem claim_C4 :
    (∀ raw d, StrG gramAmended raw d → ∀ k, parse_string (raw ++ k) = .ok k d) ∧
    (∀ e c, EscG gramAmended e c → ∀ r, escapable (e ++ r) = .ok r c) ∧
    parse_str (toL "abc\\n \\u1234") = .ok [] (toL "abc\n \u1234") :=
  ⟨parse_string_strG, escapable_escG, rfl⟩

/-- C4 counterexample: the escape `\uD800` is four hex digits, so the claim
as stated covers it, but its value is a UTF-16 surrogate: `char::from_u32`
returns `None` and `hex_char`'s second `unwrap` panics instead of producing a
decoded string. -/
theorem claim_C4_counterexample :
    parse_string (toL "\"\\uD800\"") = .panic := rfl

/-- C4 witness: the amended theorem applied to the literal `"hi\n"`. -/
theorem claim_C4_witness :
    parse_string (toL "\"hi\\n\"") = .ok [] (toL "hi\n") :=
  claim_C4.1 (toL "\"hi\\n\"") (toL "hi\n")
    (StrG.mk (toL "hi\\n") (toL "hi\n")
      (ChunksG.norm 'h' _ _ (by decide)
        (ChunksG.norm 'i' _ _ (by decide)
          (ChunksG.esc ['n'] '\n' [] [] EscG.nl ChunksG.nil)))) []

/-- C9: the number scanner succeeds exactly on the standard floating-point
literal grammar `sign? digits frac? exp?` (`NumG`, with its exact rational
decoding): it accepts every numeral followed by a non-number character,
success is equivalent to such a numeral beginning at the current position,
and when no numeral begins there `parse_number` returns a recoverable error
that — like every error in this result model — marks no input as consumed. -/
theorem claim_C9 :
    (∀ t q, NumG t q → ∀ k, numFollow k → scanNumber (t ++ k) = some (q, k)) ∧
    (∀ s, (∃ q r, scanNumber s = some (q, r)) ↔
      ∃ lit rest q, s = lit ++ rest ∧ NumG lit q) ∧
    (∀ s, scanNumber s = none → parse_number s = .err) ∧
    (∀ s q r, scanNumber s = some (q, r) → parse_number s = .ok r q) := by
  refine ⟨scanNumber_numG, scanNumber_some_iff, ?_, ?_⟩
  · intro s hnone
    unfold parse_number
    rw [hnone]
  · intro s q r hsome
    unfold parse_number
    rw [hsome]

/-- C9 witness: the scanner at the numeral `-1.5e2` followed by `]`, and the
failure of `parse_number` on `x`. -/
theorem claim_C9_witness :
    scanNumber (toL "-1.5e2" ++ [']']) =
        some (decodeParts (-1) ['1'] ['5'] 2, [']']) ∧
      parse_number (toL "x") = .err := by
  constructor
  · exact claim_C9.1 (toL "-1.5e2") (decodeParts (-1) ['1'] ['5'] 2)
      (NumG.mk ['-'] (-1) ['1'] (toL ".5") ['5'] (toL "e2") 2 SignG.minus
        (by decide) (by decide) (FracG.mk ['5'] (by decide))
        (ExpG.mk 'e' [] 1 ['2'] (Or.inl rfl) SignG.none (by decide) (by decide)))
      [']'] (by intro c cs h; injection h with h1 h2; subst h1; exact ⟨by decide, by decide, by decide, by decide⟩)
  · exact claim_C9.2.2.1 (toL "x") rfl

/-- C10: the value dispatcher tries string, bool, number, null, object, array
in that fixed order, all at the same (whitespace-skipped) position: a
successful first alternative short-circuits the rest, and when it fails
recoverably the remaining chain is attempted at exactly the original
position.  Likewise the separated-list loops backtrack without consumption:
a failed first element yields the empty list at the original position, and a
missing separator — or a separator whose following element fails — returns
the accumulated list at the position before that separator. -/
theorem claim_C10 :
    (∀ f s r v, parse_string (skipWs s) = .ok r v →
      parse_value (f + 1) s = .ok (skipWs r) (.String v)) ∧
    (∀ f s, parse_string (skipWs s) = .err →
      parse_value (f + 1) s =
        pcatch
          (porelse ((parse_bool (skipWs s)).pmap JsonValue.Bool)
            (porelse ((parse_number (skipWs s)).pmap JsonValue.Number)
              (porelse (parse_null (skipWs s))
                (porelse ((parse_object (f + 1) (skipWs s)).pmap JsonValue.Object)
                  ((parse_array (f + 1) (skipWs s)).pmap JsonValue.Array)))))
          (fun r v => .ok (skipWs r) v) .err) ∧
    (∀ f s, parse_value f (skipWs s) = .err → arrElemsP (f + 1) s = .ok s []) ∧
    (∀ f s acc, charP ',' s = .err → arrLoopP (f + 1) s acc = .ok s acc) ∧
    (∀ f s acc r u, charP ',' s = .ok r u → parse_value f (skipWs r) = .err →
      arrLoopP (f + 1) s acc = .ok s acc) ∧
    (∀ f s acc r u, tagP [','] s = .ok r u → objPairP (f + 1) r = .err →
      objLoopP (f + 1) s acc = .ok s acc) := by
  refine ⟨?_, ?_, ?_, ?_, ?_, ?_⟩
  · intro f s r v h
    rw [parse_value_succ, h]
    simp only [PResult.pmap]
    rw [porelse_ok, pcatch_ok]
  · intro f s h
    rw [parse_value_succ, h]
    simp only [PResult.pmap]
    rw [porelse_err]
  · intro f s h
    rw [arrElemsP_succ, h, bind_err, pcatch_err]
  · intro f s acc h
    rw [arrLoopP_succ, h, pcatch_err]
  · intro f s acc r u h1 h2
    rw [arrLoopP_succ, h1, pcatch_ok, h2, bind_err, pcatch_err]
  · intro f s acc r u h1 h2
    rw [objLoopP_succ, h1, pcatch_ok, h2, pcatch_err]

/-- C10 witness: the dispatcher short-circuits on the string `" \"a\" "`, and
the array loop stops without consuming at `]`. -/
theorem claim_C10_witness :
    parse_value 3 (toL " \"a\" ") = .ok [] (.String ['a']) ∧
      arrLoopP 1 [']'] ([] : List JsonValue) = .ok [']'] [] :=
  ⟨claim_C10.1 2 (toL " \"a\" ") [' '] ['a'] rfl,
    claim_C10.2.2.2.1 0 [']'] [] rfl⟩

/-- After a comma followed by (whitespace and) `]`, the array loop backtracks
to the position before the comma. -/
theorem StopA_comma_ws_rbrack (w r : List Char) (hw : WsG w) :
    StopA (',' :: (w ++ (']' :: r))) := by
  intro f acc hf
  obtain ⟨g, rfl⟩ : ∃ g, f = g + 1 := ⟨f - 1, by omega⟩
  rw [arrLoopP_succ, charP_ok, pcatch_ok]
  rw [skipWs_ws_append w _ hw, skipWs_nonws ']' r (by decide)]
  rw [parse_value_err_rbrack, bind_err, pcatch_err]

/-- After a comma followed by (whitespace and) `}`, the object loop
backtracks to the position before the comma. -/
theorem StopO_comma_ws_rbrace (w r : List Char) (hw : WsG w) :
    StopO (',' :: (w ++ ('}' :: r))) := by
  intro f acc hf
  obtain ⟨g, rfl⟩ : ∃ g, f = g + 1 := ⟨f - 1, by omega⟩
  rw [objLoopP_succ]
  rw [show (',' :: (w ++ ('}' :: r))) = [','] ++ (w ++ ('}' :: r)) from rfl,
    tagP_exact [','] (w ++ ('}' :: r))]
  rw [pcatch_ok, objPairP_succ]
  rw [skipWs_ws_append w _ hw, skipWs_nonws '}' r (by decide)]
  rw [parse_string_err_rbrace, bind_err, pcatch_err]

/-- C8: no trailing comma — for every array (resp. object) whose derivable
element (resp. pair) list is followed by a comma, optional whitespace and the
closing bracket (resp. brace), `parse` reports a syntax error; in particular
`[1,2,]` and `{"a":1,}` both fail. -/
theorem claim_C8 :
    (∀ t vs w, ElemsG gramAmended t vs → WsG w →
      parse ('[' :: (t ++ (',' :: (w ++ [']'])))) = .syntaxErr) ∧
    (∀ t ps w, PairsG gramAmended t ps → WsG w →
      parse ('{' :: (t ++ (',' :: (w ++ ['}'])))) = .syntaxErr) ∧
    parse (toL "[1,2,]") = .syntaxErr ∧
    parse (toL "\x7b\"a\":1,\x7d") = .syntaxErr := by
  refine ⟨?_, ?_, rfl, rfl⟩
  · intro t vs w hel hw
    have hkws : skipWs (',' :: (w ++ [']'])) = ',' :: (w ++ [']']) :=
      skipWs_nonws ',' _ (by decide)
    have hstopA : StopA (skipWs (',' :: (w ++ [']']))) := by
      rw [hkws]
      exact StopA_comma_ws_rbrack w [] hw
    have hfol : Follow (',' :: (w ++ [']'])) :=
      Follow_cons ',' _ (Or.inr (Or.inl rfl))
    have hlen : t.length + 3 ≤
        ('[' :: (t ++ (',' :: (w ++ [']'])))).length + 2 := by
      simp
    have helems := (bundle_all t.length).2.2.2.2.1 t vs hel rfl
      (',' :: (w ++ [']'])) (('[' :: (t ++ (',' :: (w ++ [']'])))).length + 2)
      hstopA hfol hlen
    rw [hkws] at helems
    have harr : parse_array (('[' :: (t ++ (',' :: (w ++ [']'])))).length + 2)
        ('[' :: (t ++ (',' :: (w ++ [']'])))) = .err := by
      obtain ⟨g, hg⟩ :
          ∃ g, ('[' :: (t ++ (',' :: (w ++ [']'])))).length + 2 = g + 1 :=
        ⟨('[' :: (t ++ (',' :: (w ++ [']'])))).length + 1, by omega⟩
      rw [hg] at helems ⊢
      rw [parse_array_succ, charP_ok, bind_ok, helems, bind_ok]
      rw [charP_err ']' ',' _ (by decide), bind_err]
    have hroot : parse_root (('[' :: (t ++ (',' :: (w ++ [']'])))).length + 2)
        ('[' :: (t ++ (',' :: (w ++ [']'])))) = .err := by
      rw [parse_root_eq, skipWs_nonws '[' _ (by decide)]
      rw [parse_object_err_head _ '[' _ (by decide), harr]
      rfl
    unfold parse
    rw [hroot]
  · intro t ps w hps hw
    have hkws : skipWs (',' :: (w ++ ['}'])) = ',' :: (w ++ ['}']) :=
      skipWs_nonws ',' _ (by decide)
    have hstopO : StopO (skipWs (',' :: (w ++ ['}']))) := by
      rw [hkws]
      exact StopO_comma_ws_rbrace w [] hw
    have hfol : Follow (',' :: (w ++ ['}'])) :=
      Follow_cons ',' _ (Or.inr (Or.inl rfl))
    have hlen : List.length ([] : List Char) + t.length + 3 ≤
        ('{' :: (t ++ (',' :: (w ++ ['}'])))).length + 2 := by
      simp
    have hpairs := (bundle_all t.length).2.2.2.2.2.2.1 t ps hps rfl []
      (',' :: (w ++ ['}'])) (('{' :: (t ++ (',' :: (w ++ ['}'])))).length + 2)
      rfl hstopO hfol hlen
    rw [hkws, List.nil_append] at hpairs
    have hobj : parse_object (('{' :: (t ++ (',' :: (w ++ ['}'])))).length + 2)
        ('{' :: (t ++ (',' :: (w ++ ['}'])))) = .err := by
      obtain ⟨g, hg⟩ :
          ∃ g, ('{' :: (t ++ (',' :: (w ++ ['}'])))).length + 2 = g + 1 :=
        ⟨('{' :: (t ++ (',' :: (w ++ ['}'])))).length + 1, by omega⟩
      rw [hg] at hpairs ⊢
      rw [parse_object_succ, charP_ok, bind_ok, hpairs, bind_ok]
      rw [charP_err '}' ',' _ (by decide), bind_err]
    have hroot : parse_root (('{' :: (t ++ (',' :: (w ++ ['}'])))).length + 2)
        ('{' :: (t ++ (',' :: (w ++ ['}'])))) = .err := by
      rw [parse_root_eq, skipWs_nonws '{' _ (by decide)]
      rw [hobj, parse_array_err_head _ '{' _ (by decide)]
      rfl
    unfold parse
    rw [hroot]

/-- C8 witness: the general statements applied at `[1,]` and `{"a":null,}`. -/
theorem claim_C8_witness :
    parse (toL "[1,]") = .syntaxErr ∧
      parse (toL "\x7b\"a\":null,\x7d") = .syntaxErr := by
  constructor
  · exact claim_C8.1 (toL "1") [.Number (decodeParts 1 ['1'] [] 0)] []
      (ElemsG.one (toL "1") (.Number (decodeParts 1 ['1'] [] 0))
        (ValG.num [] [] ['1'] (decodeParts 1 ['1'] [] 0) rfl rfl
          (NumG.mk [] 1 ['1'] [] [] [] 0 SignG.none (by decide) (by decide)
            FracG.none ExpG.none)))
      rfl
  · exact claim_C8.2.1 (toL "\"a\":null") [(toL "a", JsonValue.Null)] []
      (PairsG.one (toL "\"a\":null") (toL "a", JsonValue.Null)
        (PairG.mk [] (toL "\"a\"") [] (toL "null") (toL "a") JsonValue.Null rfl
          (StrG.mk ['a'] ['a'] (ChunksG.norm 'a' [] [] (by decide) ChunksG.nil))
          rfl (ValG.nul [] [] rfl rfl)))
      rfl

theorem normal_str_some_rest (s chunk r2 : List Char)
    (h : normal_str s = some (chunk, r2)) : r2 = s.drop chunk.length := by
  simp only [normal_str] at h
  split at h
  · exact Option.noConfusion h
  · injection h with h1
    injection h1 with h2 h3
    rw [← h3, h2]

theorem hex_char_err_head (c : Char) (r : List Char) (h : c ≠ 'u') :
    hex_char (c :: r) = .err := by
  refine hex_char.eq_2 (c :: r) ?_
  intro r' heq
  injection heq with h1 h2
  exact h h1

theorem hex_char_panic_none (r0 : List Char) (h4 : 4 ≤ (r0.takeWhile hexOrU).length)
    (hv : hexVal? (r0.take 4) = none) : hex_char ('u' :: r0) = .panic := by
  simp only [hex_char]
  rw [if_pos h4, hv]

theorem hex_char_ok_rest (r0 rr : List Char) (c : Char)
    (h : hex_char ('u' :: r0) = .ok rr c) : rr = r0.drop 4 := by
  by_cases h4 : 4 ≤ (r0.takeWhile hexOrU).length
  · cases hv : hexVal? (r0.take 4) with
    | none =>
      rw [hex_char_panic_none r0 h4 hv] at h
      exact PResult.noConfusion h
    | some n =>
      by_cases hsur : (decide (0xD800 ≤ n) && decide (n ≤ 0xDFFF)) = true
      · have hp : hex_char ('u' :: r0) = .panic := by
          simp only [hex_char]
          rw [if_pos h4, hv]
          simp [hsur]
        rw [hp] at h
        exact PResult.noConfusion h
      · have hp : hex_char ('u' :: r0) = .ok (r0.drop 4) (Char.ofNat n) := by
          simp only [hex_char]
          rw [if_pos h4, hv]
          simp [hsur]
        rw [hp] at h
        injection h with h1 h2
        exact h1.symm
  · have hp : hex_char ('u' :: r0) = .err := by
      simp only [hex_char]
      rw [if_neg h4]
    rw [hp] at h
    exact PResult.noConfusion h

theorem hex_char_ne_fail (s : List Char) : hex_char s ≠ .fail := by
  cases s with
  | nil => intro h; exact PResult.noConfusion h
  | cons c r =>
    by_cases hc : c = 'u'
    · subst hc
      by_cases h4 : 4 ≤ (r.takeWhile hexOrU).length
      · cases hv : hexVal? (r.take 4) with
        | none => rw [hex_char_panic_none r h4 hv]; intro h; exact PResult.noConfusion h
        | some n =>
          by_cases hsur : (decide (0xD800 ≤ n) && decide (n ≤ 0xDFFF)) = true
          · have hp : hex_char ('u' :: r) = .panic := by
              simp only [hex_char]
              rw [if_pos h4, hv]
              simp [hsur]
            rw [hp]; intro h; exact PResult.noConfusion h
          · have hp : hex_char ('u' :: r) = .ok (r.drop 4) (Char.ofNat n) := by
              simp only [hex_char]
              rw [if_pos h4, hv]
              simp [hsur]
            rw [hp]; intro h; exact PResult.noConfusion h
      · have hp : hex_char ('u' :: r) = .err := by
          simp only [hex_char]
          rw [if_neg h4]
        rw [hp]; intro h; exact PResult.noConfusion h
    · rw [hex_char_err_head c r hc]
      intro h; exact PResult.noConfusion h

theorem escapable_ok_rest (e rr : List Char) (ch : Char)
    (h : escapable e = .ok rr ch) : rr <:+ e := by
  cases e with
  | nil => exact PResult.noConfusion h
  | cons c r =>
    have hsuf : r <:+ c :: r := List.suffix_cons c r
    simp only [escapable] at h
    repeat' split at h
    all_goals try (injection h with h1 h2; rw [← h1]; exact hsuf)
    by_cases hu : c = 'u'
    · subst hu
      rw [hex_char_ok_rest r rr ch h]
      exact (List.drop_suffix 4 r).trans hsuf
    · rw [hex_char_err_head c r hu] at h
      exact PResult.noConfusion h

theorem escapable_ne_fail (e : List Char) : escapable e ≠ .fail := by
  cases e with
  | nil => intro h; exact PResult.noConfusion h
  | cons c r =>
    simp only [escapable]
    repeat' split
    all_goals try (intro h; exact PResult.noConfusion h)
    exact hex_char_ne_fail _

theorem escGo_ok_rest : ∀ (f : Nat) (α : Bool) (s acc r v : List Char),
    escGo f α s acc = .ok r v → r <:+ s := by
  intro f
  induction f with
  | zero => intro α s acc r v h; exact PResult.noConfusion h
  | succ f ih =>
    intro α s acc r v h
    cases s with
    | nil =>
      have h' : (PResult.ok [] acc : PResult (List Char)) = .ok r v := h
      injection h' with h1 h2
      rw [← h1]
    | cons c rest =>
      simp only [escGo] at h
      cases hns : normal_str (c :: rest) with
      | some pr =>
        obtain ⟨chunk, r2⟩ := pr
        simp only [hns] at h
        have hr2 : r2 <:+ c :: rest := by
          rw [normal_str_some_rest _ _ _ hns]
          exact List.drop_suffix _ _
        by_cases he : r2.isEmpty = true
        · rw [if_pos he] at h
          injection h with h1 h2
          rw [← h1]
          exact List.nil_suffix
        · rw [if_neg he] at h
          exact (ih false r2 _ r v h).trans hr2
      | none =>
        simp only [hns] at h
        by_cases hc : c = '\\'
        · subst hc
          rw [if_pos rfl] at h
          by_cases hre : rest.isEmpty = true
          · rw [if_pos hre] at h
            exact PResult.noConfusion h
          · rw [if_neg hre] at h
            cases hesc : escapable rest with
            | ok r2 ch =>
              simp only [hesc] at h
              by_cases he2 : r2.isEmpty = true
              · rw [if_pos he2] at h
                injection h with h1 h2
                rw [← h1]
                exact List.nil_suffix
              · rw [if_neg he2] at h
                exact (ih false r2 _ r v h).trans
                  ((escapable_ok_rest rest r2 ch hesc).trans
                    (List.suffix_cons '\\' rest))
            | err => simp only [hesc] at h; exact PResult.noConfusion h
            | fail => simp only [hesc] at h; exact PResult.noConfusion h
            | panic => simp only [hesc] at h; exact PResult.noConfusion h
        · rw [if_neg hc] at h
          by_cases hα : α = true
          · rw [if_pos hα] at h
            exact PResult.noConfusion h
          · rw [if_neg hα] at h
            injection h with h1 h2
            rw [← h1]

theorem escGo_ne_fail : ∀ (f : Nat) (α : Bool) (s acc : List Char),
    escGo f α s acc ≠ .fail := by
  intro f
  induction f with
  | zero => intro α s acc h; exact PResult.noConfusion h
  | succ f ih =>
    intro α s acc h
    cases s with
    | nil => exact PResult.noConfusion h
    | cons c rest =>
      simp only [escGo] at h
      cases hns : normal_str (c :: rest) with
      | some pr =>
        obtain ⟨chunk, r2⟩ := pr
        simp only [hns] at h
        by_cases he : r2.isEmpty = true
        · rw [if_pos he] at h
          exact PResult.noConfusion h
        · rw [if_neg he] at h
          exact ih false r2 _ h
      | none =>
        simp only [hns] at h
        by_cases hc : c = '\\'
        · subst hc
          rw [if_pos rfl] at h
          by_cases hre : rest.isEmpty = true
          · rw [if_pos hre] at h
            exact PResult.noConfusion h
          · rw [if_neg hre] at h
            cases hesc : escapable rest with
            | ok r2 ch =>
              simp only [hesc] at h
              by_cases he2 : r2.isEmpty = true
              · rw [if_pos he2] at h
                exact PResult.noConfusion h
              · rw [if_neg he2] at h
                exact ih false r2 _ h
            | err => simp only [hesc] at h; exact PResult.noConfusion h
            | fail => exact absurd hesc (escapable_ne_fail rest)
            | panic => simp only [hesc] at h; exact PResult.noConfusion h
        · rw [if_neg hc] at h
          by_cases hα : α = true
          · rw [if_pos hα] at h
            exact PResult.noConfusion h
          · rw [if_neg hα] at h
            exact PResult.noConfusion h

theorem escGo_panic_backslash : ∀ (f : Nat) (α : Bool) (s acc : List Char),
    escGo f α s acc = .panic → '\\' ∈ s := by
  intro f
  induction f with
  | zero => intro α s acc h; exact PResult.noConfusion h
  | succ f ih =>
    intro α s acc h
    cases s with
    | nil => exact PResult.noConfusion h
    | cons c rest =>
      simp only [escGo] at h
      cases hns : normal_str (c :: rest) with
      | some pr =>
        obtain ⟨chunk, r2⟩ := pr
        simp only [hns] at h
        have hr2 : r2 <:+ c :: rest := by
          rw [normal_str_some_rest _ _ _ hns]
          exact List.drop_suffix _ _
        by_cases he : r2.isEmpty = true
        · rw [if_pos he] at h
          exact PResult.noConfusion h
        · rw [if_neg he] at h
          exact hr2.subset (ih false r2 _ h)
      | none =>
        simp only [hns] at h
        by_cases hc : c = '\\'
        · subst hc
          exact List.mem_cons_self '\\' rest
        · rw [if_neg hc] at h
          by_cases hα : α = true
          · rw [if_pos hα] at h
            exact PResult.noConfusion h
          · rw [if_neg hα] at h
            exact PResult.noConfusion h

theorem parse_str_ok_rest (s r v : List Char) (h : parse_str s = .ok r v) :
    r <:+ s :=
  escGo_ok_rest _ _ _ _ _ _ h

theorem parse_str_ne_fail (s : List Char) : parse_str s ≠ .fail :=
  escGo_ne_fail _ _ _ _

theorem parse_str_panic_backslash (s : List Char) (h : parse_str s = .panic) :
    '\\' ∈ s :=
  escGo_panic_backslash _ _ _ _ h

theorem parse_string_ne_fail (s : List Char) : parse_string s ≠ .fail := by
  cases s with
  | nil => intro h; exact PResult.noConfusion h
  | cons c r =>
    by_cases hc : c = '"'
    · subst hc
      cases r with
      | nil => intro h; exact PResult.noConfusion h
      | cons c2 r2 =>
        by_cases hc2 : c2 = '"'
        · subst hc2
          intro h
          exact PResult.noConfusion h
        · have heq : parse_string ('"' :: c2 :: r2) =
              (parse_str (c2 :: r2)).bind fun r2' cs =>
                match r2' with
                | '"' :: r3 => .ok r3 cs
                | _ => .err := by
            refine parse_string.eq_2 (c2 :: r2) ?_
            intro r' heq'
            injection heq' with a b
            exact hc2 a
          rw [heq]
          cases hps : parse_str (c2 :: r2) with
          | ok rr cs =>
            rw [bind_ok]
            cases rr with
            | nil => intro h; exact PResult.noConfusion h
            | cons d ds =>
              intro h
              split at h
              · exact PResult.noConfusion h
              · exact PResult.noConfusion h
          | err => rw [bind_err]; intro h; exact PResult.noConfusion h
          | fail => exact absurd hps (parse_str_ne_fail _)
          | panic => rw [bind_panic]; intro h; exact PResult.noConfusion h
    · rw [parse_string_err_head c r hc]
      intro h
      exact PResult.noConfusion h

/-- An unterminated string body (no quote, no backslash) makes `parse_string`
fail with a recoverable error: the `escaped_transform` loop consumes up to the
input's end or a control character, and the closing `tag("\"")` then fails. -/
theorem parse_string_unterminated (body : List Char) (hq : '"' ∉ body)
    (hb : '\\' ∉ body) : parse_string ('"' :: body) = .err := by
  cases body with
  | nil => rfl
  | cons c rest =>
    have hc : c ≠ '"' := by
      intro hx
      subst hx
      exact hq (List.mem_cons_self _ _)
    have heq : parse_string ('"' :: c :: rest) =
        (parse_str (c :: rest)).bind fun r2' cs =>
          match r2' with
          | '"' :: r3 => .ok r3 cs
          | _ => .err := by
      refine parse_string.eq_2 (c :: rest) ?_
      intro r' heq'
      injection heq' with a b
      exact hc a
    rw [heq]
    cases hps : parse_str (c :: rest) with
    | ok rr cs =>
      rw [bind_ok]
      have hsuf : rr <:+ c :: rest := parse_str_ok_rest _ _ _ hps
      cases rr with
      | nil => rfl
      | cons d ds =>
        have hd : d ≠ '"' := by
          intro hx
          subst hx
          exact hq (hsuf.subset (List.mem_cons_self _ _))
        split
        next r3 heq2 => injection heq2 with a b; exact absurd a hd
        next => rfl
    | err => rw [bind_err]
    | fail => exact absurd hps (parse_str_ne_fail _)
    | panic => exact absurd (parse_str_panic_backslash _ hps) hb

theorem normal_str_pre_backslash (pre : List Char) (c : Char) (rest : List Char)
    (hpre : pre.all (fun x => !stopChar x) = true) :
    normal_str (pre ++ '\\' :: c :: rest) =
      if pre.isEmpty then none else some (pre, '\\' :: c :: rest) := by
  obtain ⟨ht, hd⟩ := takeWhile_all_append (fun x => !stopChar x) pre
    ('\\' :: c :: rest) hpre (Or.inr ⟨'\\', c :: rest, rfl, by decide⟩)
  simp only [normal_str]
  rw [ht, List.drop_left]

/-- The `escaped_transform` loop on a clean run followed by a backslash whose
follower is not an accepted escape: the loop errors. -/
theorem escGo_pre_bad_escape (f : Nat) (α : Bool) (pre : List Char) (c : Char)
    (rest acc : List Char) (hpre : pre.all (fun x => !stopChar x) = true)
    (hesc : escapable (c :: rest) = .err) (hf : 2 ≤ f) :
    escGo f α (pre ++ '\\' :: c :: rest) acc = .err := by
  obtain ⟨g, rfl⟩ : ∃ g, f = g + 1 := ⟨f - 1, by omega⟩
  cases pre with
  | nil =>
    show escGo (g + 1) α ('\\' :: c :: rest) acc = .err
    simp only [escGo]
    rw [normal_str_stop_head '\\' _ (by decide)]
    rw [if_pos trivial]
    rw [if_neg (by simp)]
    rw [hesc]
  | cons p ps =>
    have hns := normal_str_pre_backslash (p :: ps) c rest hpre
    rw [if_neg (by simp)] at hns
    show escGo (g + 1) α ((p :: ps) ++ '\\' :: c :: rest) acc = .err
    rw [show ((p :: ps) ++ '\\' :: c :: rest) = p :: (ps ++ '\\' :: c :: rest) from rfl]
    simp only [escGo]
    rw [show (p :: (ps ++ '\\' :: c :: rest)) = ((p :: ps) ++ '\\' :: c :: rest) from rfl]
    rw [hns]
    simp only
    rw [if_neg (by simp)]
    obtain ⟨g', rfl⟩ : ∃ g', g = g' + 1 := ⟨g - 1, by omega⟩
    show escGo (g' + 1) false ('\\' :: c :: rest) (acc ++ (p :: ps)) = .err
    simp only [escGo]
    rw [normal_str_stop_head '\\' _ (by decide)]
    rw [if_pos trivial]
    rw [if_neg (by simp)]
    rw [hesc]

theorem escapable_err_head (c : Char) (r : List Char)
    (h1 : c ≠ '"') (h2 : c ≠ '\\') (h3 : c ≠ '/') (h4 : c ≠ 'b')
    (h5 : c ≠ 'f') (h6 : c ≠ 'n') (h7 : c ≠ 'r') (h8 : c ≠ 't')
    (h9 : c ≠ 'u') : escapable (c :: r) = .err := by
  simp only [escapable]
  rw [if_neg h1, if_neg h2, if_neg h3, if_neg h4, if_neg h5, if_neg h6,
    if_neg h7, if_neg h8]
  exact hex_char_err_head c r h9

theorem hex_char_short (rest : List Char)
    (h : (rest.takeWhile hexOrU).length < 4) : hex_char ('u' :: rest) = .err := by
  simp only [hex_char]
  rw [if_neg (by omega)]

theorem parse_string_bad_escape (pre : List Char) (c : Char) (rest : List Char)
    (hpre : pre.all (fun x => !stopChar x) = true)
    (hesc : escapable (c :: rest) = .err) :
    parse_string ('"' :: (pre ++ '\\' :: c :: rest)) = .err := by
  have hlen : 2 ≤ (pre ++ '\\' :: c :: rest).length + 1 := by
    simp
    omega
  have hgo : parse_str (pre ++ '\\' :: c :: rest) = .err :=
    escGo_pre_bad_escape _ _ pre c rest [] hpre hesc hlen
  have hside : ∀ r', (pre ++ '\\' :: c :: rest) = '"' :: r' → False := by
    intro r' heq'
    cases pre with
    | nil =>
      injection heq' with a b
      exact absurd a (by decide)
    | cons p ps =>
      injection heq' with a b
      subst a
      rw [List.all_cons, Bool.and_eq_true] at hpre
      have hh : stopChar '"' = false := by simpa using hpre.1
      exact absurd hh (by decide)
  have heq : parse_string ('"' :: (pre ++ '\\' :: c :: rest)) =
      (parse_str (pre ++ '\\' :: c :: rest)).bind fun r2' cs =>
        match r2' with
        | '"' :: r3 => .ok r3 cs
        | _ => .err := by
    refine parse_string.eq_2 _ ?_
    intro r' heq'
    exact hside r' heq'
  rw [heq, hgo, bind_err]

/-- C5 (amended): malformed strings produce a recoverable error, not a crash,
except through the `\u` scanner's stray-`'u'` acceptance (see the
counterexample): an unterminated body (no closing quote, no backslash) is an
error; a clean run followed by a backslash whose follower is not an accepted
escape is an error; a backslash-follower outside the escape table (including
`'u'` when fewer than 4 scanner-accepted characters follow) is rejected by
`escapable`; a `\u` with fewer than 4 scanner-accepted characters is rejected
by `hex_char`; and the string parser never returns the unrecoverable
`Err::Failure`. -/
theorem claim_C5 :
    (∀ body, '"' ∉ body → '\\' ∉ body → parse_string ('"' :: body) = .err) ∧
    (∀ pre c rest, pre.all (fun x => !stopChar x) = true →
      escapable (c :: rest) = .err →
      parse_string ('"' :: (pre ++ '\\' :: c :: rest)) = .err) ∧
    (∀ c rest, c ≠ '"' → c ≠ '\\' → c ≠ '/' → c ≠ 'b' → c ≠ 'f' → c ≠ 'n' →
      c ≠ 'r' → c ≠ 't' → c ≠ 'u' → escapable (c :: rest) = .err) ∧
    (∀ rest, (rest.takeWhile hexOrU).length < 4 →
      hex_char ('u' :: rest) = .err) ∧
    (∀ s, parse_string s ≠ .fail) :=
  ⟨parse_string_unterminated, parse_string_bad_escape, escapable_err_head,
    hex_char_short, parse_string_ne_fail⟩

/-- C5 counterexample: the escape `\uu123` has 4 following characters that
are not all hex digits, so the claim promises an error diagnostic — but the
scanner's predicate wrongly accepts `'u'`, `take_while_m_n` consumes
`u123`, `u32::from_str_radix` fails, and its `unwrap` panics: the process
aborts instead of returning a `Result`. -/
theorem claim_C5_counterexample :
    parse (toL "[\"\\uu123\"]") = .panicked := rfl

/-- C5 witness: the three error modes at concrete inputs — the unterminated
`"abc`, the bad escape `"a\x"`, and the short hex escape `\u12`. -/
theorem claim_C5_witness :
    parse_string (toL "\"abc") = .err ∧
      parse_string (toL "\"a\\x\"") = .err ∧
      hex_char (toL "u12") = .err := by
  refine ⟨?_, ?_, ?_⟩
  · exact claim_C5.1 (toL "abc") (by decide) (by decide)
  · exact claim_C5.2.1 ['a'] 'x' ['"'] (by decide) rfl
  · exact claim_C5.2.2.2.1 (toL "12") (by decide)
